import Mathlib

/-!
Verification development for the factorio progress-bar repository.

The repository has two nontrivial algorithms:
  * `generate_pbar_conditions` in `progress.py` — the condition generator;
  * the markup renderer (`FONT_OPEN_RE` / `INNERMOST_COLOR_RE` /
    `_render_all_colors_iteratively` / `pretty_print_markup`) in
    `tests/test_progress.py`.

Both are embedded below.  Strings are modelled as `List Char`; Python `int`
is modelled as `ℤ` (Python integers are unbounded); Python `float` values
that feed the percentage formatting and the colour-mapper arguments are
modelled as exact rationals `ℚ` (the binary floating point rounding of the
original is not modelled; for the concrete configurations checked below the
float computations are exact, and the properties proved are stable under
the rounding of well-behaved values).  Fallible Python operations (range
with step 0, indexing, division by zero) are modelled in `Except PyErr`.
-/

/-- Errors that the Python code can raise on the executed paths. -/
inductive PyErr where
  | zeroDivisionError
  | valueError
  | indexError
deriving DecidableEq, Repr

/-- Boolean prefix test on char lists (`pat` is a prefix of `l`). -/
def sw : List Char → List Char → Bool
  | [], _ => true
  | _ :: _, [] => false
  | p :: ps, c :: cs => p == c && sw ps cs

/-- Substring occurrence test: some suffix of `l` has `pat` as a prefix. -/
def hasOcc (pat : List Char) : List Char → Bool
  | [] => sw pat []
  | c :: r => sw pat (c :: r) || hasOcc pat r

/-- Characters of `[0-9A-Fa-f]`, the hex-digit class of `INNERMOST_COLOR_RE`. -/
def isHexDigitC (c : Char) : Bool :=
  c.isDigit || ('a' ≤ c && c ≤ 'f') || ('A' ≤ c && c ≤ 'F')

/-- The literal `[font=` that anchors `FONT_OPEN_RE`. -/
def fontOpenPat : List Char := "[font=".toList

/-- The literal `[/font]`. -/
def fontClosePat : List Char := "[/font]".toList

/-- The literal `[color=` that anchors `INNERMOST_COLOR_RE`. -/
def colorOpenPat : List Char := "[color=".toList

/-- The literal `[/color]`. -/
def colorClosePat : List Char := "[/color]".toList

/-- Split a string at its first `]`: returns the part before (which contains
no `]`) and the part after the `]`.  `none` if there is no `]`.  This is how
the greedy `[^\]]+\]` part of `FONT_OPEN_RE` consumes its input. -/
def splitAtRB : List Char → Option (List Char × List Char)
  | [] => none
  | c :: r =>
    if c = ']' then some ([], r)
    else (splitAtRB r).map (fun pr => (c :: pr.1, pr.2))

theorem splitAtRB_shrink : ∀ (l a b : List Char),
    splitAtRB l = some (a, b) → b.length < l.length := by
  intro l
  induction l with
  | nil => intro a b h; simp [splitAtRB] at h
  | cons c r ih =>
    intro a b h
    by_cases hc : c = ']'
    · simp [splitAtRB, hc] at h
      simp [← h.2]
    · rw [splitAtRB] at h
      simp only [hc, if_false] at h
      rw [Option.map_eq_some'] at h
      obtain ⟨pr, hpr, heq⟩ := h
      have := ih pr.1 pr.2 (by rw [hpr])
      have hb : pr.2 = b := by
        have := congrArg Prod.snd heq
        simpa using this
      rw [← hb]
      simp only [List.length_cons]
      omega

/-- Fuel-indexed body of `stripFontOpens`.  Each recursive call strictly
shrinks the list, so `l.length` fuel always suffices (see
`stripFontOpensGo_fuel`); fuel keeps the recursion structural so that the
function evaluates by kernel reduction. -/
def stripFontOpensGo : ℕ → List Char → List Char
  | 0, l => l
  | fuel + 1, l =>
    match l with
    | [] => []
    | c :: r =>
      if sw fontOpenPat (c :: r) then
        match splitAtRB (r.drop 5) with
        | some (content, rest) =>
          if content.isEmpty then c :: stripFontOpensGo fuel r
          else stripFontOpensGo fuel rest
        | none => c :: stripFontOpensGo fuel r
      else c :: stripFontOpensGo fuel r

/-- `FONT_OPEN_RE.sub("", markup)`: remove every occurrence of
`[font=` + (one or more non-`]` chars) + `]`, scanning left to right; a
failed match advances one character, a successful match resumes after the
removed tag. -/
def stripFontOpens (l : List Char) : List Char := stripFontOpensGo l.length l

/-- Fuel-indexed body of `removeFontClose`; `l.length` fuel always
suffices. -/
def removeFontCloseGo : ℕ → List Char → List Char
  | 0, l => l
  | fuel + 1, l =>
    match l with
    | [] => []
    | c :: r =>
      if sw fontClosePat (c :: r) then removeFontCloseGo fuel (r.drop 6)
      else c :: removeFontCloseGo fuel r

/-- `processed_markup.replace("[/font]", "")`: delete every occurrence of
the literal `[/font]`, left to right. -/
def removeFontClose (l : List Char) : List Char := removeFontCloseGo l.length l

/-- A located match of `INNERMOST_COLOR_RE`: the text before the match, the
`hex` group (including the leading `#`), the `text` group, and the text
after the match. -/
structure CMatch where
  pre : List Char
  hex : List Char
  inner : List Char
  post : List Char
deriving DecidableEq, Repr

/-- Matching of `#[0-9A-Fa-f]{6,8}\]` right after the literal `[color=`.
The quantifier `{6,8}` is greedy, so 8 digits are tried first, then 7,
then 6; since `]` is not a hex digit at most one alternative can succeed.
Returns the `hex` group (with `#`) and the remaining input after `]`. -/
def matchColorOpen : List Char → Option (List Char × List Char)
  | '#' :: r =>
    if (r.take 8).length == 8 && (r.take 8).all isHexDigitC && sw [']'] (r.drop 8) then
      some ('#' :: r.take 8, (r.drop 8).drop 1)
    else if (r.take 7).length == 7 && (r.take 7).all isHexDigitC && sw [']'] (r.drop 7) then
      some ('#' :: r.take 7, (r.drop 7).drop 1)
    else if (r.take 6).length == 6 && (r.take 6).all isHexDigitC && sw [']'] (r.drop 6) then
      some ('#' :: r.take 6, (r.drop 6).drop 1)
    else none
  | _ => none

/-- The lazy `(?P<text>(?:(?!\[color=).)*?)\[/color\]` part: at each
position first try to match `[/color]` (lazy: shortest text wins); if that
fails and `[color=` starts here, the guarded dot cannot consume, so the
whole attempt fails; otherwise consume one character and continue.
Returns the `text` group and the input after the closing `[/color]`. -/
def scanInner : List Char → Option (List Char × List Char)
  | [] => none
  | c :: r =>
    if sw colorClosePat (c :: r) then some ([], r.drop 7)
    else if sw colorOpenPat (c :: r) then none
    else (scanInner r).map (fun pr => (c :: pr.1, pr.2))

/-- `INNERMOST_COLOR_RE.search(current_text)`: the leftmost position where
the whole pattern matches.  A failed attempt advances one character. -/
def findColorMatch : List Char → Option CMatch
  | [] => none
  | c :: r =>
    if sw colorOpenPat (c :: r) then
      match matchColorOpen ((c :: r).drop 7) with
      | some (hx, afterOpen) =>
        match scanInner afterOpen with
        | some (inner, post) => some ⟨[], hx, inner, post⟩
        | none => (findColorMatch r).map (fun m => ⟨c :: m.pre, m.hex, m.inner, m.post⟩)
      | none => (findColorMatch r).map (fun m => ⟨c :: m.pre, m.hex, m.inner, m.post⟩)
    else (findColorMatch r).map (fun m => ⟨c :: m.pre, m.hex, m.inner, m.post⟩)

/-- Value of a hex digit, as in Python `int(x, 16)` for the digits that
`isHexDigitC` accepts. -/
def hexVal (c : Char) : ℕ :=
  if c.isDigit then c.toNat - 48
  else if 'a' ≤ c && c ≤ 'f' then c.toNat - 87
  else if 'A' ≤ c && c ≤ 'F' then c.toNat - 55
  else 0

/-- `int(rgb_hex[i:i+2], 16)` for a two-character slice. -/
def byteOf (c1 c2 : Char) : ℕ := 16 * hexVal c1 + hexVal c2

/-- The ASCII escape character `\033`. -/
def escChar : Char := Char.ofNat 27

/-- Fuel-indexed body of `natStr`; any fuel above the digit count works,
and `n + 1` always suffices (each step divides `n` by ten). -/
def natStrGo : ℕ → ℕ → List Char
  | 0, _ => []
  | fuel + 1, n =>
    if n < 10 then [Char.ofNat (48 + n)]
    else natStrGo fuel (n / 10) ++ [Char.ofNat (48 + n % 10)]

/-- Decimal representation of a natural number, as Python `str(n)`. -/
def natStr (n : ℕ) : List Char := natStrGo (n + 1) n

/-- `hex_code[-6:]`: the last six characters. -/
def last6 (l : List Char) : List Char := l.drop (l.length - 6)

/-- The ANSI truecolor opener `\033[38;2;{r};{g};{b}m` built from the last
six characters of the hex group (`rgb_hex = hex_code[-6:]`). -/
def ansiOfHex (hx : List Char) : List Char :=
  let h6 := last6 hx
  let r := byteOf (h6.getD 0 '0') (h6.getD 1 '0')
  let g := byteOf (h6.getD 2 '0') (h6.getD 3 '0')
  let b := byteOf (h6.getD 4 '0') (h6.getD 5 '0')
  escChar :: '[' :: "38;2;".toList ++ natStr r ++ ';' :: natStr g ++ ';' :: natStr b ++ ['m']

/-- The ANSI reset `\033[0m`. -/
def ansiReset : List Char := [escChar, '[', '0', 'm']

/-- Number of `]` characters; a strictly decreasing measure for the
replacement loop (each replacement deletes the `]` of the opening tag and
the `]` of `[/color]` and inserts none). -/
def countRB (l : List Char) : ℕ := (l.filter (fun c => c == ']')).length

/-- The body of the `while True` loop of `_render_all_colors_iteratively`,
run at most `fuel` times: find the leftmost innermost colour tag and
replace it by ANSI opener + inner text + ANSI reset; stop when no match
remains. -/
def resolveFuel : ℕ → List Char → List Char
  | 0, l => l
  | n + 1, l =>
    match findColorMatch l with
    | none => l
    | some m => resolveFuel n (m.pre ++ ansiOfHex m.hex ++ m.inner ++ ansiReset ++ m.post)

/-- `_render_all_colors_iteratively`: the loop of `resolveFuel` runs until
no match remains; `countRB l` iterations always suffice (proved below), so
this is the exact result of the unbounded Python loop. -/
def renderColors (l : List Char) : List Char := resolveFuel (countRB l) l

/-- `pretty_print_markup` without the final `print`: strip font-open tags,
delete `[/font]` occurrences, then resolve colour tags innermost-first. -/
def renderMarkup (l : List Char) : List Char :=
  renderColors (removeFontClose (stripFontOpens l))

/-- The block characters `'▏', '▎', '▍', '▌', '▋', '▊', '▉', '█'`
(lightest eighth to fully filled), as in `progress.py`. -/
def substeps : List Char := "▏▎▍▌▋▊▉█".toList

/-- `divs = len(substeps)`. -/
def divs : ℤ := (substeps.length : ℤ)

/-- `substeps[-1]`, the heaviest (fully filled) block. -/
def fullBlock : Char := substeps.getLast (by decide)

/-- Python list indexing `l[i]` with negative-index wrap-around; raises
`IndexError` when out of range. -/
def pyIndex (l : List Char) (i : ℤ) : Except PyErr Char :=
  let j := if i < 0 then i + l.length else i
  if h : 0 ≤ j ∧ j.toNat < l.length then .ok (l.get ⟨j.toNat, h.2⟩)
  else .error .indexError

/-- Python `range(start, stop, step)` as a list of integers.  The caller
guards `step ≠ 0` (Python raises `ValueError` there). -/
def pyRange (start stop step : ℤ) : List ℤ :=
  if 0 < step then
    (List.range ((stop - start + step - 1).fdiv step).toNat).map
      (fun i : ℕ => start + step * (i : ℤ))
  else
    (List.range ((start - stop + (-step) - 1).fdiv (-step)).toNat).map
      (fun i : ℕ => start + step * (i : ℤ))

/-- Round half to even: the rounding of Python's fixed-point formatting,
applied here to the exact rational value (the value is a float in Python;
for the concrete configurations checked below it is exactly
representable). -/
def rhe (q : ℚ) : ℤ :=
  if q - ⌊q⌋ < 1/2 then ⌊q⌋
  else if 1/2 < q - ⌊q⌋ then ⌊q⌋ + 1
  else if Even ⌊q⌋ then ⌊q⌋ else ⌊q⌋ + 1

/-- The digit part of `f"{q:.1f}"`: one decimal digit, no padding.  (The
sign of Python's negative floating zero is not modelled; a negative
formatted value only arises on the garbage path `length < 0 ∧ stepSize <
0`, about whose text nothing is claimed.) -/
def fmt1f (q : ℚ) : List Char :=
  let n10 := rhe (q * 10)
  if n10 < 0 then
    '-' :: natStr ((-n10).toNat / 10) ++ ['.', Char.ofNat (48 + (-n10).toNat % 10)]
  else
    natStr (n10.toNat / 10) ++ ['.', Char.ofNat (48 + n10.toNat % 10)]

/-- The literal `[font=technology-slot-level-font]` wrapper opener used in
the generated text. -/
def fontOpenTechTag : List Char := "[font=technology-slot-level-font]".toList

/-- `PBarConfig` of `progress.py`.  `cmapHex` models the composition
`mpl.colors.rgb2hex ∘ config.cmap` — the injected colour mapper followed
by the external matplotlib hex conversion — and is `none` when
`cmap is None`. -/
structure PBarConfigM where
  position : ℤ × ℤ
  signalName : List Char
  prefixStr : List Char
  cmapHex : Option (ℚ → List Char)
  length : ℤ
  stepSize : ℤ

/-- One generated condition: the varying fields of the template (the
threshold `constant`, the `comparator`, the display `text`) plus the
signal fields copied from the configuration. -/
structure Cond where
  firstSignal : List Char
  constant : ℤ
  comparator : List Char
  iconName : List Char
  text : List Char
deriving DecidableEq, Repr

/-- One iteration of the `for step in steps` loop of
`generate_pbar_conditions`, for loop value `s`.  Returns the appended
condition together with the list of arguments passed to the colour mapper
during this iteration, in call order. -/
def condFor (cfg : PBarConfigM) (s : ℤ) : Except PyErr (Cond × List ℚ) :=
  let maxT := cfg.length * divs
  let numBefore := max (s.fdiv divs) 0
  let numCur := s.fmod divs
  let barRes : Except PyErr (List Char × ℤ) :=
    if s = -1 then .ok ([], cfg.length - numBefore)
    else
      match pyIndex substeps numCur with
      | .error e => .error e
      | .ok cu => .ok (List.replicate numBefore.toNat fullBlock ++ [cu],
                       cfg.length - numBefore - 1)
  match barRes with
  | .error e => .error e
  | .ok (bar0, numAfter) =>
    let colRes : Except PyErr (List Char × List ℚ) :=
      match cfg.cmapHex with
      | none => .ok (bar0, [])
      | some f =>
        if maxT - 1 = 0 then .error .zeroDivisionError
        else
          let t := (s : ℚ) / ((maxT : ℚ) - 1)
          .ok ((if bar0.isEmpty then bar0
                else colorOpenPat ++ f t ++ ']' :: bar0 ++ colorClosePat), [t])
    match colRes with
    | .error e => .error e
    | .ok (bar, args1) =>
      if cfg.length * divs = 0 then .error .zeroDivisionError
      else
        let stepv := s + 1
        let numStr := fmt1f ((stepv : ℚ) / ((cfg.length * divs : ℤ) : ℚ) * 100)
        let lead := 5 - numStr.length
        let labelStr := numStr ++ ['%']
        let end0 := List.replicate numAfter.toNat fullBlock ++ List.replicate lead '0'
        let endRes : Except PyErr (List Char × List ℚ) :=
          match cfg.cmapHex with
          | none => .ok (end0, [])
          | some f =>
            if end0.isEmpty then .ok (end0, [])
            else if maxT - 1 = 0 then .error .zeroDivisionError
            else
              let t := (stepv : ℚ) / ((maxT : ℚ) - 1)
              .ok (colorOpenPat ++ f t ++ ']' :: end0 ++ colorClosePat, [t])
        match endRes with
        | .error e => .error e
        | .ok (endStr, args2) =>
          .ok ({ firstSignal := cfg.signalName
               , constant := stepv
               , comparator := "=".toList
               , iconName := cfg.signalName
               , text := cfg.prefixStr ++ fontOpenTechTag ++ bar ++ endStr
                           ++ fontClosePat ++ "  ".toList ++ labelStr }
              , args1 ++ args2)

/-- `List.mapM` over `Except`, explicit for easy induction. -/
def mapExcept {α β : Type} (f : α → Except PyErr β) : List α → Except PyErr (List β)
  | [] => .ok []
  | a :: rest =>
    match f a with
    | .error e => .error e
    | .ok b =>
      match mapExcept f rest with
      | .error e => .error e
      | .ok bs => .ok (b :: bs)

/-- `conditions[0]["condition"]["comparator"] = "<="` followed by
`conditions[-1]["condition"]["comparator"] = ">="` — in that order, so for
a singleton list the `>=` assignment wins. -/
def postProcess (l : List Cond) : List Cond :=
  match l with
  | [] => []
  | c :: rest =>
    let l1 := { c with comparator := "<=".toList } :: rest
    l1.dropLast ++ [{ l1.getLast (List.cons_ne_nil _ _) with comparator := ">=".toList }]

/-- `generate_pbar_conditions`.  Returns the ordered condition list
together with the list of all arguments passed to the colour mapper (in
call order); the error cases model the exceptions Python raises. -/
def generatePbarConditions (cfg : PBarConfigM) :
    Except PyErr (List Cond × List ℚ) :=
  if cfg.stepSize = 0 then .error .valueError
  else
    match pyRange (-1) (cfg.length * divs) cfg.stepSize with
    | [] => .error .indexError
    | s0 :: srest =>
      let lastv := (s0 :: srest).getLast (List.cons_ne_nil _ _)
      let steps := if lastv < cfg.length * divs - 1
                   then (s0 :: srest) ++ [cfg.length * divs - 1]
                   else s0 :: srest
      match mapExcept (condFor cfg) steps with
      | .error e => .error e
      | .ok results =>
        let args := (results.map Prod.snd).flatten
        match results.map Prod.fst with
        | [] => .error .indexError
        | c :: cs => .ok (postProcess (c :: cs), args)

/-- The pure (error-free) value of `condFor`.  `condFor cfg s` equals
`.ok (pureCondArgs cfg s)` whenever `cfg.length ≠ 0` (proved below). -/
def pureCondArgs (cfg : PBarConfigM) (s : ℤ) : Cond × List ℚ :=
  let maxT := cfg.length * divs
  let numBefore := max (s.fdiv divs) 0
  let bar0 : List Char :=
    if s = -1 then []
    else List.replicate numBefore.toNat fullBlock
           ++ [substeps.getD (s.fmod divs).toNat fullBlock]
  let numAfter := if s = -1 then cfg.length - numBefore
                  else cfg.length - numBefore - 1
  let barArgs : List Char × List ℚ :=
    match cfg.cmapHex with
    | none => (bar0, [])
    | some f =>
      let t := (s : ℚ) / ((maxT : ℚ) - 1)
      ((if bar0.isEmpty then bar0
        else colorOpenPat ++ f t ++ ']' :: bar0 ++ colorClosePat), [t])
  let stepv := s + 1
  let numStr := fmt1f ((stepv : ℚ) / ((cfg.length * divs : ℤ) : ℚ) * 100)
  let lead := 5 - numStr.length
  let labelStr := numStr ++ ['%']
  let end0 := List.replicate numAfter.toNat fullBlock ++ List.replicate lead '0'
  let endArgs : List Char × List ℚ :=
    match cfg.cmapHex with
    | none => (end0, [])
    | some f =>
      if end0.isEmpty then (end0, [])
      else
        let t := (stepv : ℚ) / ((maxT : ℚ) - 1)
        (colorOpenPat ++ f t ++ ']' :: end0 ++ colorClosePat, [t])
  ({ firstSignal := cfg.signalName
   , constant := stepv
   , comparator := "=".toList
   , iconName := cfg.signalName
   , text := cfg.prefixStr ++ fontOpenTechTag ++ barArgs.1 ++ endArgs.1
               ++ fontClosePat ++ "  ".toList ++ labelStr }
  , barArgs.2 ++ endArgs.2)

theorem substeps_length : substeps.length = 8 := by decide

theorem divs_eq : divs = 8 := by decide

theorem fmod_divs_bounds (s : ℤ) : 0 ≤ s.fmod divs ∧ s.fmod divs < 8 := by
  rw [divs_eq, Int.fmod_eq_emod s (by norm_num)]
  exact ⟨Int.emod_nonneg s (by norm_num), Int.emod_lt_of_pos s (by norm_num)⟩

theorem pyIndex_substeps (s : ℤ) :
    pyIndex substeps (s.fmod divs) = .ok (substeps.getD (s.fmod divs).toNat fullBlock) := by
  obtain ⟨h0, h8⟩ := fmod_divs_bounds s
  have hlt : (s.fmod divs).toNat < substeps.length := by
    rw [substeps_length]; omega
  have hneg : ¬ (s.fmod divs < 0) := not_lt.mpr h0
  simp only [pyIndex, hneg, if_false, ite_false]
  rw [dif_pos ⟨h0, hlt⟩]
  rw [List.getD_eq_getElem _ _ hlt]
  simp [List.get_eq_getElem]

theorem condFor_ok (cfg : PBarConfigM) (s : ℤ) (hL : cfg.length ≠ 0) :
    condFor cfg s = .ok (pureCondArgs cfg s) := by
  have hdiv : ¬ (cfg.length * divs = 0) := by
    rw [divs_eq]; intro h; omega
  have hmax1 : ¬ (cfg.length * divs - 1 = 0) := by
    rw [divs_eq]; intro h; omega
  by_cases hs : s = -1 <;> cases hcm : cfg.cmapHex <;>
    simp [condFor, pureCondArgs, hs, hcm, hmax1, hdiv, pyIndex_substeps] <;>
    split_ifs <;> simp

theorem mapExcept_ok {α β : Type} (f : α → Except PyErr β) (g : α → β)
    (l : List α) (h : ∀ a ∈ l, f a = .ok (g a)) :
    mapExcept f l = .ok (l.map g) := by
  induction l with
  | nil => rfl
  | cons a rest ih =>
    have ha := h a (by simp)
    have hr := ih (fun x hx => h x (by simp [hx]))
    simp [mapExcept, ha, hr]

/-- The final list of loop values `steps` built by
`generate_pbar_conditions` from `length` and `step_size`: the raw
`range(-1, max_threshold, step_size)` with `max_threshold - 1` appended
when the raw last value falls short of it. -/
def stepsFor (L ss : ℤ) : List ℤ :=
  match pyRange (-1) (L * divs) ss with
  | [] => []
  | s0 :: srest =>
    if (s0 :: srest).getLast (List.cons_ne_nil _ _) < L * divs - 1
    then (s0 :: srest) ++ [L * divs - 1]
    else s0 :: srest

theorem generate_ok (cfg : PBarConfigM) (hL : cfg.length ≠ 0)
    (hss : cfg.stepSize ≠ 0)
    (hne : pyRange (-1) (cfg.length * divs) cfg.stepSize ≠ []) :
    generatePbarConditions cfg =
      .ok ((stepsFor cfg.length cfg.stepSize).map (fun s => (pureCondArgs cfg s).1) |> postProcess,
           ((stepsFor cfg.length cfg.stepSize).map (fun s => (pureCondArgs cfg s).2)).flatten) := by
  have hmapok := mapExcept_ok (condFor cfg) (pureCondArgs cfg)
  unfold generatePbarConditions stepsFor
  rw [if_neg hss]
  cases hraw : pyRange (-1) (cfg.length * divs) cfg.stepSize with
  | nil => exact absurd hraw hne
  | cons s0 srest =>
    dsimp only
    by_cases hlt : (s0 :: srest).getLast (List.cons_ne_nil _ _) < cfg.length * divs - 1 <;>
      simp only [hlt, if_true, if_false, ite_true, ite_false] <;>
      rw [hmapok _ (fun a _ => condFor_ok cfg a hL)] <;>
      simp [List.map_map, Function.comp_def]

theorem raw_eq (L ss : ℤ) (hss : 0 < ss) :
    pyRange (-1) (L * divs) ss =
      (List.range ((L * divs + ss).fdiv ss).toNat).map (fun i : ℕ => -1 + ss * (i : ℤ)) := by
  have harg : L * divs - -1 + ss - 1 = L * divs + ss := by ring
  rw [pyRange, if_pos hss, harg]

theorem raw_count_pos (L ss : ℤ) (hL : 1 ≤ L) (hss : 1 ≤ ss) :
    1 ≤ ((L * divs + ss).fdiv ss).toNat := by
  rw [Int.fdiv_eq_ediv _ (by omega)]
  have h1 : (1 : ℤ) ≤ (L * divs + ss) / ss := by
    rw [Int.le_ediv_iff_mul_le (by omega)]
    rw [divs_eq]; nlinarith
  omega

theorem raw_last_lt (L ss : ℤ) (hL : 1 ≤ L) (hss : 1 ≤ ss) :
    -1 + ss * ((((L * divs + ss).fdiv ss).toNat : ℤ) - 1) < L * divs := by
  rw [Int.fdiv_eq_ediv _ (by omega)]
  have hq1 : (1 : ℤ) ≤ (L * divs + ss) / ss := by
    rw [Int.le_ediv_iff_mul_le (by omega)]
    rw [divs_eq]; nlinarith
  have hmul : (L * divs + ss) / ss * ss ≤ L * divs + ss := Int.ediv_mul_le _ (by omega)
  have ht : ((((L * divs + ss) / ss).toNat : ℤ)) = (L * divs + ss) / ss := by omega
  rw [ht]
  nlinarith [hmul]

theorem raw_mem (L ss x : ℤ) (hss : 0 < ss)
    (hx : x ∈ pyRange (-1) (L * divs) ss) :
    ∃ i : ℕ, i < ((L * divs + ss).fdiv ss).toNat ∧ x = -1 + ss * (i : ℤ) := by
  rw [raw_eq L ss hss] at hx
  simp only [List.mem_map, List.mem_range] at hx
  obtain ⟨i, hi, hxi⟩ := hx
  exact ⟨i, hi, hxi.symm⟩

theorem raw_ne_nil (L ss : ℤ) (hL : 1 ≤ L) (hss : 1 ≤ ss) :
    pyRange (-1) (L * divs) ss ≠ [] := by
  rw [raw_eq L ss (by omega)]
  have h := raw_count_pos L ss hL hss
  intro hnil
  rw [List.map_eq_nil_iff, List.range_eq_nil] at hnil
  omega

theorem raw_getLast? (L ss : ℤ) (hL : 1 ≤ L) (hss : 1 ≤ ss) :
    (pyRange (-1) (L * divs) ss).getLast? =
      some (-1 + ss * ((((L * divs + ss).fdiv ss).toNat : ℤ) - 1)) := by
  rw [raw_eq L ss (by omega)]
  have hn := raw_count_pos L ss hL hss
  obtain ⟨m, hm⟩ : ∃ m, ((L * divs + ss).fdiv ss).toNat = m + 1 :=
    ⟨((L * divs + ss).fdiv ss).toNat - 1, by omega⟩
  rw [hm, List.range_succ, List.map_append]
  simp

theorem raw_pairwise (L ss : ℤ) (hss : 1 ≤ ss) :
    List.Pairwise (· < ·) (pyRange (-1) (L * divs) ss) := by
  rw [raw_eq L ss (by omega)]
  refine List.Pairwise.map _ ?_ (List.pairwise_lt_range _)
  intro a b hab
  have : (a : ℤ) < (b : ℤ) := by exact_mod_cast hab
  nlinarith

theorem raw_le_last (L ss x : ℤ) (hL : 1 ≤ L) (hss : 1 ≤ ss)
    (hx : x ∈ pyRange (-1) (L * divs) ss) :
    -1 ≤ x ∧ x ≤ -1 + ss * ((((L * divs + ss).fdiv ss).toNat : ℤ) - 1) := by
  obtain ⟨i, hi, hxi⟩ := raw_mem L ss x (by omega) hx
  subst hxi
  constructor
  · nlinarith [Int.ofNat_nonneg i]
  · have hilt : (i : ℤ) < (((L * divs + ss).fdiv ss).toNat : ℤ) := by exact_mod_cast hi
    have hi' : (i : ℤ) ≤ (((L * divs + ss).fdiv ss).toNat : ℤ) - 1 := by omega
    nlinarith

theorem stepsFor_getLast? (L ss : ℤ) (hL : 1 ≤ L) (hss : 1 ≤ ss) :
    (stepsFor L ss).getLast? = some (L * divs - 1) := by
  unfold stepsFor
  cases hraw : pyRange (-1) (L * divs) ss with
  | nil => exact absurd hraw (raw_ne_nil L ss hL hss)
  | cons s0 srest =>
    dsimp only
    have hlast : (s0 :: srest).getLast (List.cons_ne_nil _ _) =
        -1 + ss * ((((L * divs + ss).fdiv ss).toNat : ℤ) - 1) := by
      have h1 := raw_getLast? L ss hL hss
      rw [hraw, List.getLast?_eq_getLast _ (List.cons_ne_nil _ _)] at h1
      exact Option.some.inj h1
    by_cases hlt : (s0 :: srest).getLast (List.cons_ne_nil _ _) < L * divs - 1
    · rw [if_pos hlt]
      rw [List.getLast?_concat]
    · rw [if_neg hlt]
      have hle : (s0 :: srest).getLast (List.cons_ne_nil _ _) ≤ L * divs - 1 := by
      -- every raw value is at most the raw last, and the raw last is < L*divs
        have := raw_last_lt L ss hL hss
        rw [hlast]; omega
      have heq : (s0 :: srest).getLast (List.cons_ne_nil _ _) = L * divs - 1 := by omega
      rw [List.getLast?_eq_getLast _ (List.cons_ne_nil _ _), heq]

theorem stepsFor_ne_nil (L ss : ℤ) (hL : 1 ≤ L) (hss : 1 ≤ ss) :
    stepsFor L ss ≠ [] := by
  unfold stepsFor
  cases hraw : pyRange (-1) (L * divs) ss with
  | nil => exact absurd hraw (raw_ne_nil L ss hL hss)
  | cons s0 srest =>
    dsimp only
    split <;> simp

theorem stepsFor_head? (L ss : ℤ) (hL : 1 ≤ L) (hss : 1 ≤ ss) :
    (stepsFor L ss).head? = some (-1) := by
  have hraw0 : ∀ s0 srest, pyRange (-1) (L * divs) ss = s0 :: srest → s0 = -1 := by
    intro s0 srest hraw
    have := raw_eq L ss (by omega)
    rw [hraw] at this
    have hn := raw_count_pos L ss hL hss
    obtain ⟨m, hm⟩ : ∃ m, ((L * divs + ss).fdiv ss).toNat = m + 1 :=
      ⟨((L * divs + ss).fdiv ss).toNat - 1, by omega⟩
    rw [hm, List.range_succ_eq_map] at this
    simp only [List.map_cons] at this
    have := congrArg List.head? this
    simp at this
    omega
  unfold stepsFor
  cases hraw : pyRange (-1) (L * divs) ss with
  | nil => exact absurd hraw (raw_ne_nil L ss hL hss)
  | cons s0 srest =>
    dsimp only
    have hs0 := hraw0 s0 srest hraw
    split <;> simp [hs0]

theorem stepsFor_mem_bounds (L ss x : ℤ) (hL : 1 ≤ L) (hss : 1 ≤ ss)
    (hx : x ∈ stepsFor L ss) : -1 ≤ x ∧ x ≤ L * divs - 1 := by
  have hrawcase : ∀ y, y ∈ pyRange (-1) (L * divs) ss → -1 ≤ y ∧ y ≤ L * divs - 1 := by
    intro y hy
    have h1 := raw_le_last L ss y hL hss hy
    have h2 := raw_last_lt L ss hL hss
    exact ⟨h1.1, by omega⟩
  unfold stepsFor at hx
  revert hx
  cases hraw : pyRange (-1) (L * divs) ss with
  | nil => intro hx; simp at hx
  | cons s0 srest =>
    dsimp only
    split
    · intro hx
      rw [List.mem_append] at hx
      rcases hx with hx | hx
      · exact hrawcase x (by rw [hraw]; exact hx)
      · rw [List.mem_singleton] at hx
        subst hx
        constructor
        · rw [divs_eq]; nlinarith
        · omega
    · intro hx
      exact hrawcase x (by rw [hraw]; exact hx)

theorem stepsFor_pairwise (L ss : ℤ) (hL : 1 ≤ L) (hss : 1 ≤ ss) :
    List.Pairwise (· < ·) (stepsFor L ss) := by
  have hpraw := raw_pairwise L ss hss
  unfold stepsFor
  cases hraw : pyRange (-1) (L * divs) ss with
  | nil => simp
  | cons s0 srest =>
    dsimp only
    rw [hraw] at hpraw
    split
    case isTrue hlt =>
      rw [List.pairwise_append]
      refine ⟨hpraw, by simp, ?_⟩
      intro a ha b hb
      rw [List.mem_singleton] at hb
      subst hb
      -- a is at most the raw last, which is < L * divs - 1 by the guard
      have hle := raw_le_last L ss a hL hss (by rw [hraw]; exact ha)
      have hlast : (s0 :: srest).getLast (List.cons_ne_nil _ _) =
          -1 + ss * ((((L * divs + ss).fdiv ss).toNat : ℤ) - 1) := by
        have h1 := raw_getLast? L ss hL hss
        rw [hraw, List.getLast?_eq_getLast _ (List.cons_ne_nil _ _)] at h1
        exact Option.some.inj h1
      rw [hlast] at hlt
      omega
    case isFalse hlt => exact hpraw

theorem stepsFor_length2 (L ss : ℤ) (hL : 1 ≤ L) (hss : 1 ≤ ss) :
    2 ≤ (stepsFor L ss).length := by
  have hh := stepsFor_head? L ss hL hss
  have hl := stepsFor_getLast? L ss hL hss
  cases hsteps : stepsFor L ss with
  | nil => rw [hsteps] at hh; simp at hh
  | cons a t =>
    cases t with
    | nil =>
      rw [hsteps] at hh hl
      simp at hh hl
      rw [divs_eq] at hl
      omega
    | cons b t' => simp

theorem postProcess_length (l : List Cond) : (postProcess l).length = l.length := by
  cases l with
  | nil => rfl
  | cons c rest =>
    simp [postProcess, List.length_dropLast]

theorem postProcess_map_constant (l : List Cond) :
    (postProcess l).map Cond.constant = l.map Cond.constant := by
  cases l with
  | nil => rfl
  | cons c0 rest =>
    simp only [postProcess, List.map_append]
    have hback :
        ([{ ({ c0 with comparator := "<=".toList } :: rest).getLast (List.cons_ne_nil _ _)
              with comparator := ">=".toList }].map Cond.constant) =
        ([({ c0 with comparator := "<=".toList } :: rest).getLast (List.cons_ne_nil _ _)].map
          Cond.constant) := by
      simp
    rw [hback, ← List.map_append, List.dropLast_append_getLast]
    simp

theorem mem_postProcess (c : Cond) (l : List Cond) (hc : c ∈ postProcess l) :
    ∃ c' ∈ l, c.text = c'.text ∧ c.constant = c'.constant := by
  cases l with
  | nil => simp [postProcess] at hc
  | cons c0 rest =>
    have sub : ∀ d : Cond, d ∈ ({ c0 with comparator := "<=".toList } :: rest) →
        ∃ c' ∈ c0 :: rest, d.text = c'.text ∧ d.constant = c'.constant := by
      intro d hd
      rcases List.mem_cons.mp hd with hd | hd
      · exact ⟨c0, by simp, by rw [hd], by rw [hd]⟩
      · exact ⟨d, by simp [hd], rfl, rfl⟩
    simp only [postProcess] at hc
    rcases List.mem_append.mp hc with hc | hc
    · exact sub c (List.dropLast_sublist _ |>.subset hc)
    · rw [List.mem_singleton] at hc
      obtain ⟨c', hc', h1, h2⟩ := sub _ (List.getLast_mem (List.cons_ne_nil _ _))
      exact ⟨c', hc', by rw [hc]; exact h1, by rw [hc]; exact h2⟩

theorem postProcess_head? (c0 : Cond) (rest : List Cond) (hrest : rest ≠ []) :
    (postProcess (c0 :: rest)).head? = some { c0 with comparator := "<=".toList } := by
  simp only [postProcess]
  rw [List.dropLast_cons_of_ne_nil hrest]
  simp

theorem postProcess_getLast? (c0 : Cond) (rest : List Cond) :
    (postProcess (c0 :: rest)).getLast? =
      some { (c0 :: rest).getLast (List.cons_ne_nil _ _) with comparator := ">=".toList } := by
  simp only [postProcess]
  rw [List.getLast?_concat]
  cases hr : rest with
  | nil => simp
  | cons b t =>
    simp [List.getLast_cons]

theorem postProcess_middle (c : Cond) (c0 : Cond) (rest : List Cond) (hrest : rest ≠ [])
    (hc : c ∈ ((postProcess (c0 :: rest)).drop 1).dropLast) : c ∈ rest := by
  simp only [postProcess] at hc
  rw [List.dropLast_cons_of_ne_nil hrest] at hc
  rw [show ({ c0 with comparator := "<=".toList } :: rest.dropLast) ++ [_] =
      { c0 with comparator := "<=".toList } :: (rest.dropLast ++ [_]) from rfl] at hc
  rw [List.drop_one, List.tail_cons, List.dropLast_concat] at hc
  exact (List.dropLast_sublist rest).subset hc

theorem pureCond_constant (cfg : PBarConfigM) (s : ℤ) :
    (pureCondArgs cfg s).1.constant = s + 1 := rfl

theorem pureCond_comparator (cfg : PBarConfigM) (s : ℤ) :
    (pureCondArgs cfg s).1.comparator = "=".toList := rfl

theorem genValid (cfg : PBarConfigM) (hL : 1 ≤ cfg.length) (hss : 1 ≤ cfg.stepSize) :
    generatePbarConditions cfg =
      .ok (postProcess ((stepsFor cfg.length cfg.stepSize).map (fun s => (pureCondArgs cfg s).1)),
           ((stepsFor cfg.length cfg.stepSize).map (fun s => (pureCondArgs cfg s).2)).flatten) :=
  generate_ok cfg (by omega) (by omega) (raw_ne_nil _ _ hL hss)

theorem condsFor_ne_nil (cfg : PBarConfigM) (hL : 1 ≤ cfg.length) (hss : 1 ≤ cfg.stepSize) :
    (stepsFor cfg.length cfg.stepSize).map (fun s => (pureCondArgs cfg s).1) ≠ [] := by
  simp only [ne_eq, List.map_eq_nil_iff]
  exact stepsFor_ne_nil _ _ hL hss

theorem condsFor_getLast? (cfg : PBarConfigM) (hL : 1 ≤ cfg.length) (hss : 1 ≤ cfg.stepSize) :
    (postProcess ((stepsFor cfg.length cfg.stepSize).map
        (fun s => (pureCondArgs cfg s).1))).getLast?.map Cond.constant =
      some (cfg.length * 8) ∧
    (postProcess ((stepsFor cfg.length cfg.stepSize).map
        (fun s => (pureCondArgs cfg s).1))).getLast?.map Cond.comparator =
      some ">=".toList := by
  cases hconds : (stepsFor cfg.length cfg.stepSize).map (fun s => (pureCondArgs cfg s).1) with
  | nil => exact absurd hconds (condsFor_ne_nil cfg hL hss)
  | cons c0 rest =>
    rw [postProcess_getLast? c0 rest]
    have hglm : (c0 :: rest).getLast? = ((stepsFor cfg.length cfg.stepSize).getLast?).map
        (fun s => (pureCondArgs cfg s).1) := by
      rw [← hconds, List.getLast?_map]
    rw [stepsFor_getLast? _ _ hL hss] at hglm
    have hgl : (c0 :: rest).getLast (List.cons_ne_nil _ _) =
        (pureCondArgs cfg (cfg.length * divs - 1)).1 := by
      rw [List.getLast?_eq_getLast _ (List.cons_ne_nil _ _)] at hglm
      simpa using hglm
    rw [hgl]
    constructor
    · simp only [Option.map_some']
      rw [show ({ (pureCondArgs cfg (cfg.length * divs - 1)).1 with
            comparator := ">=".toList } : Cond).constant =
          (pureCondArgs cfg (cfg.length * divs - 1)).1.constant from rfl]
      rw [pureCond_constant, divs_eq]
      congr 1
      ring
    · simp

/-- C1 (amended): for every configuration with `length ≥ 1` and
`stepSize ≥ 1` the generator succeeds and the last condition has threshold
`length * 8` (the loop stores `step + 1` and the last loop value is
`length*8 - 1`), with comparator `>=`; in particular for `length = 10`,
`stepSize = 1` the last threshold is `80`, not `79` as claimed. -/
theorem C1_last_threshold (pos : ℤ × ℤ) (sig pfx : List Char)
    (cm : Option (ℚ → List Char)) (L ss : ℤ) (hL : 1 ≤ L) (hss : 1 ≤ ss) :
    ∃ conds args,
      generatePbarConditions ⟨pos, sig, pfx, cm, L, ss⟩ = .ok (conds, args) ∧
      conds.getLast?.map Cond.constant = some (L * 8) ∧
      conds.getLast?.map Cond.comparator = some ">=".toList := by
  refine ⟨_, _, genValid ⟨pos, sig, pfx, cm, L, ss⟩ hL hss, ?_, ?_⟩
  · exact (condsFor_getLast? _ hL hss).1
  · exact (condsFor_getLast? _ hL hss).2

/-- C1 counterexample: for `length = 10`, `stepSize = 1` the last generated
condition has threshold `80`, not `79 = length*8 - 1` as the claim
states. -/
theorem C1_cex :
    (∃ conds args,
      generatePbarConditions ⟨(0, 0), "parameter-0".toList, [], none, 10, 1⟩ =
        .ok (conds, args) ∧
      conds.getLast?.map Cond.constant = some 80) ∧ (80 : ℤ) ≠ 10 * 8 - 1 := by
  constructor
  · refine ⟨_, _, genValid ⟨(0, 0), "parameter-0".toList, [], none, 10, 1⟩
      (by norm_num) (by norm_num), ?_⟩
    have h := (condsFor_getLast?
      (⟨(0, 0), "parameter-0".toList, [], none, 10, 1⟩ : PBarConfigM)
      (by norm_num) (by norm_num)).1
    simpa using h
  · norm_num

/-- C1 witness: the amended theorem applied at the concrete configuration
`length = 10`, `stepSize = 1`. -/
theorem C1_witness :
    (1 : ℤ) ≤ 10 ∧ (1 : ℤ) ≤ 1 ∧
    ∃ conds args,
      generatePbarConditions ⟨(0, 0), "parameter-0".toList, [], none, 10, 1⟩ =
        .ok (conds, args) ∧
      conds.getLast?.map Cond.constant = some (10 * 8) ∧
      conds.getLast?.map Cond.comparator = some ">=".toList :=
  ⟨by norm_num, by norm_num,
    C1_last_threshold (0, 0) "parameter-0".toList [] none 10 1 (by norm_num) (by norm_num)⟩

theorem postProcess_ne_nil (l : List Cond) (hl : l ≠ []) : postProcess l ≠ [] := by
  cases l with
  | nil => exact absurd rfl hl
  | cons c rest => simp [postProcess]

/-- C2: for every configuration with `length ≥ 1` and `stepSize ≥ 1` the
generated list is non-empty, its thresholds are strictly increasing, the
first condition has comparator `<=` and threshold `0`, the last has
comparator `>=`, and every other condition has comparator `=`; for
`length = 10`, `stepSize = 1` exactly 81 conditions are produced. -/
theorem C2_invariants :
    (∀ (pos : ℤ × ℤ) (sig pfx : List Char) (cm : Option (ℚ → List Char)) (L ss : ℤ),
      1 ≤ L → 1 ≤ ss →
      ∃ conds args,
        generatePbarConditions ⟨pos, sig, pfx, cm, L, ss⟩ = .ok (conds, args) ∧
        conds ≠ [] ∧
        List.Pairwise (· < ·) (conds.map Cond.constant) ∧
        conds.head?.map Cond.comparator = some "<=".toList ∧
        conds.head?.map Cond.constant = some 0 ∧
        conds.getLast?.map Cond.comparator = some ">=".toList ∧
        (∀ c ∈ (conds.drop 1).dropLast, c.comparator = "=".toList)) ∧
    (∀ (pos : ℤ × ℤ) (sig pfx : List Char) (cm : Option (ℚ → List Char)),
      ∃ conds args,
        generatePbarConditions ⟨pos, sig, pfx, cm, 10, 1⟩ = .ok (conds, args) ∧
        conds.length = 81) := by
  constructor
  · intro pos sig pfx cm L ss hL hss
    set cfg : PBarConfigM := ⟨pos, sig, pfx, cm, L, ss⟩ with hcfg
    refine ⟨_, _, genValid cfg hL hss, ?_, ?_, ?_, ?_, ?_, ?_⟩
    · exact postProcess_ne_nil _ (condsFor_ne_nil cfg hL hss)
    · rw [postProcess_map_constant, List.map_map]
      have hmc : (Cond.constant ∘ fun s => (pureCondArgs cfg s).1) = fun s => s + 1 := by
        funext s; exact pureCond_constant cfg s
      rw [hmc]
      exact (stepsFor_pairwise L ss hL hss).map _ (fun a b hab => by omega)
    · cases hconds : (stepsFor cfg.length cfg.stepSize).map (fun s => (pureCondArgs cfg s).1) with
      | nil => exact absurd hconds (condsFor_ne_nil cfg hL hss)
      | cons c0 rest =>
        have hlen := stepsFor_length2 L ss hL hss
        have hrest : rest ≠ [] := by
          have := congrArg List.length hconds
          rw [List.length_map] at this
          intro hn
          rw [hn] at this
          simp at this
          omega
        rw [postProcess_head? c0 rest hrest]
        simp
    · cases hconds : (stepsFor cfg.length cfg.stepSize).map (fun s => (pureCondArgs cfg s).1) with
      | nil => exact absurd hconds (condsFor_ne_nil cfg hL hss)
      | cons c0 rest =>
        have hlen := stepsFor_length2 L ss hL hss
        have hrest : rest ≠ [] := by
          have := congrArg List.length hconds
          rw [List.length_map] at this
          intro hn
          rw [hn] at this
          simp at this
          omega
        rw [postProcess_head? c0 rest hrest]
        have hc0 : c0 = (pureCondArgs cfg (-1)).1 := by
          have hh : (c0 :: rest).head? = ((stepsFor cfg.length cfg.stepSize).head?).map
              (fun s => (pureCondArgs cfg s).1) := by
            rw [← hconds, List.head?_map]
          rw [stepsFor_head? _ _ hL hss] at hh
          simpa using hh
        simp only [Option.map_some']
        rw [show ({ c0 with comparator := "<=".toList } : Cond).constant = c0.constant from rfl,
          hc0, pureCond_constant]
        norm_num
    · exact (condsFor_getLast? cfg hL hss).2
    · intro c hc
      cases hconds : (stepsFor cfg.length cfg.stepSize).map (fun s => (pureCondArgs cfg s).1) with
      | nil => exact absurd hconds (condsFor_ne_nil cfg hL hss)
      | cons c0 rest =>
        have hlen := stepsFor_length2 L ss hL hss
        have hrest : rest ≠ [] := by
          have := congrArg List.length hconds
          rw [List.length_map] at this
          intro hn
          rw [hn] at this
          simp at this
          omega
        rw [hconds] at hc
        have hmem := postProcess_middle c c0 rest hrest hc
        have : c ∈ (stepsFor cfg.length cfg.stepSize).map (fun s => (pureCondArgs cfg s).1) := by
          rw [hconds]
          exact List.mem_cons_of_mem _ hmem
        obtain ⟨s, _, hs⟩ := List.mem_map.mp this
        rw [← hs]
        exact pureCond_comparator cfg s
  · intro pos sig pfx cm
    refine ⟨_, _, genValid ⟨pos, sig, pfx, cm, 10, 1⟩ (by norm_num) (by norm_num), ?_⟩
    rw [postProcess_length, List.length_map]
    show (stepsFor 10 1).length = 81
    decide

/-- C2 witness: the invariants instantiated at the concrete configuration
`length = 10`, `stepSize = 1`. -/
theorem C2_witness :
    (1 : ℤ) ≤ 10 ∧ (1 : ℤ) ≤ 1 ∧
    ∃ conds args,
      generatePbarConditions ⟨(0, 0), "parameter-0".toList, [], none, 10, 1⟩ =
        .ok (conds, args) ∧
      conds ≠ [] ∧
      List.Pairwise (· < ·) (conds.map Cond.constant) ∧
      conds.head?.map Cond.comparator = some "<=".toList ∧
      conds.head?.map Cond.constant = some 0 ∧
      conds.getLast?.map Cond.comparator = some ">=".toList ∧
      (∀ c ∈ (conds.drop 1).dropLast, c.comparator = "=".toList) :=
  ⟨by norm_num, by norm_num,
    C2_invariants.1 (0, 0) "parameter-0".toList [] none 10 1 (by norm_num) (by norm_num)⟩

theorem gen_valueError (cfg : PBarConfigM) (hss : cfg.stepSize = 0) :
    generatePbarConditions cfg = .error .valueError := by
  unfold generatePbarConditions
  rw [if_pos hss]

theorem condFor_zdiv (cfg : PBarConfigM) (hL : cfg.length = 0) :
    condFor cfg (-1) = .error .zeroDivisionError := by
  have h1 : cfg.length * divs = 0 := by rw [hL]; ring
  have h2 : ¬(cfg.length * divs - 1 = 0) := by rw [h1]; norm_num
  cases hcm : cfg.cmapHex <;> simp [condFor, hcm, h1, h2]

theorem gen_zdiv (cfg : PBarConfigM) (hL : cfg.length = 0) (hss : 1 ≤ cfg.stepSize) :
    generatePbarConditions cfg = .error .zeroDivisionError := by
  have hraw : pyRange (-1) (cfg.length * divs) cfg.stepSize = [-1] := by
    have harg : cfg.length * divs - -1 + cfg.stepSize - 1 = cfg.stepSize := by
      rw [hL]; ring
    rw [pyRange, if_pos (by omega), harg, Int.fdiv_eq_ediv _ (by omega),
      Int.ediv_self (by omega)]
    rw [show List.range (Int.toNat 1) = [0] from rfl]
    simp
  unfold generatePbarConditions
  rw [if_neg (by omega), hraw]
  dsimp only
  have hguard : ¬ (([-1] : List ℤ).getLast (List.cons_ne_nil _ _) < cfg.length * divs - 1) := by
    rw [hL]
    simp [List.getLast]
  rw [if_neg hguard]
  have hmap : mapExcept (condFor cfg) [-1] = .error .zeroDivisionError := by
    simp [mapExcept, condFor_zdiv cfg hL]
  rw [hmap]

theorem gen_indexError_negL (cfg : PBarConfigM) (hL : cfg.length < 0)
    (hss : 1 ≤ cfg.stepSize) :
    generatePbarConditions cfg = .error .indexError := by
  have hraw : pyRange (-1) (cfg.length * divs) cfg.stepSize = [] := by
    rw [pyRange, if_pos (by omega)]
    have hnum : cfg.length * divs - -1 + cfg.stepSize - 1 < cfg.stepSize := by
      rw [divs_eq]; nlinarith
    have hdiv : (cfg.length * divs - -1 + cfg.stepSize - 1).fdiv cfg.stepSize ≤ 0 := by
      rw [Int.fdiv_eq_ediv _ (by omega)]
      have : (cfg.length * divs - -1 + cfg.stepSize - 1) / cfg.stepSize < 1 := by
        rw [Int.ediv_lt_iff_lt_mul (by omega)]
        omega
      omega
    have : ((cfg.length * divs - -1 + cfg.stepSize - 1).fdiv cfg.stepSize).toNat = 0 := by
      omega
    rw [this]
    simp
  unfold generatePbarConditions
  rw [if_neg (by omega), hraw]

theorem gen_indexError_negSS (cfg : PBarConfigM) (hL : 1 ≤ cfg.length)
    (hss : cfg.stepSize < 0) :
    generatePbarConditions cfg = .error .indexError := by
  have hraw : pyRange (-1) (cfg.length * divs) cfg.stepSize = [] := by
    rw [pyRange, if_neg (by omega)]
    have hnum : -1 - cfg.length * divs + -cfg.stepSize - 1 < -cfg.stepSize := by
      rw [divs_eq]; nlinarith
    have hdiv : (-1 - cfg.length * divs + -cfg.stepSize - 1).fdiv (-cfg.stepSize) ≤ 0 := by
      rw [Int.fdiv_eq_ediv _ (by omega)]
      have : (-1 - cfg.length * divs + -cfg.stepSize - 1) / (-cfg.stepSize) < 1 := by
        rw [Int.ediv_lt_iff_lt_mul (by omega)]
        omega
      omega
    have : ((-1 - cfg.length * divs + -cfg.stepSize - 1).fdiv (-cfg.stepSize)).toNat = 0 := by
      omega
    rw [this]
    simp
  unfold generatePbarConditions
  rw [if_neg (by omega), hraw]

theorem gen_ok_ne_nil (cfg : PBarConfigM) (conds : List Cond) (args : List ℚ)
    (h : generatePbarConditions cfg = .ok (conds, args)) : conds ≠ [] := by
  unfold generatePbarConditions at h
  by_cases hss0 : cfg.stepSize = 0
  · rw [if_pos hss0] at h; simp at h
  · rw [if_neg hss0] at h
    cases hraw : pyRange (-1) (cfg.length * divs) cfg.stepSize with
    | nil => rw [hraw] at h; simp at h
    | cons s0 srest =>
      rw [hraw] at h
      dsimp only at h
      cases hmap : mapExcept (condFor cfg)
          (if (s0 :: srest).getLast (List.cons_ne_nil _ _) < cfg.length * divs - 1
           then (s0 :: srest) ++ [cfg.length * divs - 1] else s0 :: srest) with
      | error e => rw [hmap] at h; simp at h
      | ok results =>
        rw [hmap] at h
        dsimp only at h
        cases hfst : results.map Prod.fst with
        | nil => rw [hfst] at h; simp at h
        | cons c cs =>
          rw [hfst] at h
          simp only [Except.ok.injEq, Prod.mk.injEq] at h
          rw [← h.1]
          exact postProcess_ne_nil _ (List.cons_ne_nil _ _)

/-- C10: for invalid configurations the generator never returns an empty
list and raises no dedicated configuration error: `length = 0` (with a
valid step) raises `ZeroDivisionError` from the percentage division by
`length*8 = 0`, `stepSize = 0` raises `ValueError` from `range`, and a
negative `length` (with a positive step) or a negative `stepSize` (with a
positive length) raises `IndexError` from `steps[-1]` on the empty step
list; any successful run returns a non-empty list. -/
theorem C10_invalid_configs :
    (∀ (pos : ℤ × ℤ) (sig pfx : List Char) (cm : Option (ℚ → List Char)) (ss : ℤ),
      1 ≤ ss →
      generatePbarConditions ⟨pos, sig, pfx, cm, 0, ss⟩ = .error .zeroDivisionError) ∧
    (∀ (pos : ℤ × ℤ) (sig pfx : List Char) (cm : Option (ℚ → List Char)) (L : ℤ),
      generatePbarConditions ⟨pos, sig, pfx, cm, L, 0⟩ = .error .valueError) ∧
    (∀ (pos : ℤ × ℤ) (sig pfx : List Char) (cm : Option (ℚ → List Char)) (L ss : ℤ),
      L < 0 → 1 ≤ ss →
      generatePbarConditions ⟨pos, sig, pfx, cm, L, ss⟩ = .error .indexError) ∧
    (∀ (pos : ℤ × ℤ) (sig pfx : List Char) (cm : Option (ℚ → List Char)) (L ss : ℤ),
      1 ≤ L → ss < 0 →
      generatePbarConditions ⟨pos, sig, pfx, cm, L, ss⟩ = .error .indexError) ∧
    (∀ (cfg : PBarConfigM) (conds : List Cond) (args : List ℚ),
      generatePbarConditions cfg = .ok (conds, args) → conds ≠ []) := by
  refine ⟨?_, ?_, ?_, ?_, gen_ok_ne_nil⟩
  · intro pos sig pfx cm ss hss
    exact gen_zdiv _ rfl hss
  · intro pos sig pfx cm L
    exact gen_valueError _ rfl
  · intro pos sig pfx cm L ss hL hss
    exact gen_indexError_negL _ hL hss
  · intro pos sig pfx cm L ss hL hss
    exact gen_indexError_negSS _ hL hss

/-- C10 witness: the error behaviours at the concrete invalid
configurations `length=0`, `stepSize=0`, `length=-3`, `stepSize=-2`, and
non-emptiness of a concrete successful run. -/
theorem C10_witness :
    generatePbarConditions ⟨(0, 0), [], [], none, 0, 1⟩ = .error .zeroDivisionError ∧
    generatePbarConditions ⟨(0, 0), [], [], none, 10, 0⟩ = .error .valueError ∧
    generatePbarConditions ⟨(0, 0), [], [], none, -3, 1⟩ = .error .indexError ∧
    generatePbarConditions ⟨(0, 0), [], [], none, 10, -2⟩ = .error .indexError :=
  ⟨C10_invalid_configs.1 (0, 0) [] [] none 1 (by norm_num),
   C10_invalid_configs.2.1 (0, 0) [] [] none 10,
   C10_invalid_configs.2.2.1 (0, 0) [] [] none (-3) 1 (by norm_num) (by norm_num),
   C10_invalid_configs.2.2.2.1 (0, 0) [] [] none 10 (-2) (by norm_num) (by norm_num)⟩

theorem pureCond_args_cases (cfg : PBarConfigM) (f : ℚ → List Char)
    (hcm : cfg.cmapHex = some f) (s : ℤ) :
    (pureCondArgs cfg s).2 = [(s : ℚ) / (((cfg.length * divs : ℤ) : ℚ) - 1)] ∨
    (pureCondArgs cfg s).2 = [(s : ℚ) / (((cfg.length * divs : ℤ) : ℚ) - 1),
                              ((s : ℚ) + 1) / (((cfg.length * divs : ℤ) : ℚ) - 1)] := by
  simp only [pureCondArgs, hcm]
  split_ifs <;> simp <;> push_cast <;> ring_nf <;> simp

theorem rhe_int (n : ℤ) : rhe ((n : ℤ) : ℚ) = n := by
  unfold rhe
  rw [Int.floor_intCast]
  norm_num

theorem fmt1f_hundred : fmt1f 100 = ['1', '0', '0', '.', '0'] := by
  unfold fmt1f
  rw [show (100 : ℚ) * 10 = ((1000 : ℤ) : ℚ) from by norm_num, rhe_int]
  norm_num
  decide

theorem pureCond_args_at_last (cfg : PBarConfigM) (f : ℚ → List Char)
    (hcm : cfg.cmapHex = some f) (hL : 1 ≤ cfg.length) :
    (pureCondArgs cfg (cfg.length * divs - 1)).2 =
      [((cfg.length * divs - 1 : ℤ) : ℚ) / (((cfg.length * divs : ℤ) : ℚ) - 1)] := by
  have hM : 8 ≤ cfg.length * divs := by rw [divs_eq]; omega
  have hne : cfg.length * divs - 1 ≠ -1 := by omega
  have hfd : (cfg.length * divs - 1).fdiv divs = cfg.length - 1 := by
    rw [divs_eq, Int.fdiv_eq_ediv _ (by norm_num)]
    omega
  have hmax : max ((cfg.length * divs - 1).fdiv divs) 0 = cfg.length - 1 := by
    rw [hfd]; omega
  have hafter : (cfg.length - max ((cfg.length * divs - 1).fdiv divs) 0 - 1).toNat = 0 := by
    rw [hmax]; omega
  have hq : ((cfg.length * divs - 1 + 1 : ℤ) : ℚ) / ((cfg.length * divs : ℤ) : ℚ) * 100
      = 100 := by
    have hM0 : ((cfg.length * divs : ℤ) : ℚ) ≠ 0 := by
      rw [Int.cast_ne_zero]; omega
    rw [show cfg.length * divs - 1 + 1 = cfg.length * divs from by ring]
    rw [div_self hM0, one_mul]
  simp only [pureCondArgs, hcm, if_neg hne, hafter]
  rw [hq, fmt1f_hundred]
  simp

theorem argBound (M : ℤ) (hM : 8 ≤ M) (x : ℤ) (hx1 : -1 ≤ x) (hx2 : x ≤ M - 1) :
    -1 / ((M : ℚ) - 1) ≤ (x : ℚ) / ((M : ℚ) - 1) ∧ (x : ℚ) / ((M : ℚ) - 1) ≤ 1 := by
  have hden : (0 : ℚ) < (M : ℚ) - 1 := by
    have : (8 : ℚ) ≤ (M : ℚ) := by exact_mod_cast hM
    linarith
  constructor
  · gcongr
    exact_mod_cast hx1
  · rw [div_le_one hden]
    have : (x : ℚ) ≤ (M : ℚ) - 1 := by
      have h2 : (x : ℚ) ≤ ((M - 1 : ℤ) : ℚ) := by exact_mod_cast hx2
      push_cast at h2
      linarith
    linarith

theorem gen_args_mem (cfg : PBarConfigM) (hL : 1 ≤ cfg.length) (hss : 1 ≤ cfg.stepSize)
    (t : ℚ)
    (ht : t ∈ ((stepsFor cfg.length cfg.stepSize).map (fun s => (pureCondArgs cfg s).2)).flatten) :
    ∃ s, s ∈ stepsFor cfg.length cfg.stepSize ∧ t ∈ (pureCondArgs cfg s).2 := by
  rw [List.mem_flatten] at ht
  obtain ⟨lst, hlst, htl⟩ := ht
  rw [List.mem_map] at hlst
  obtain ⟨s, hs, rfl⟩ := hlst
  exact ⟨s, hs, htl⟩

theorem argBound0 (M : ℤ) (hM : 8 ≤ M) (x : ℤ) (hx1 : 0 ≤ x) (hx2 : x ≤ M - 1) :
    0 ≤ (x : ℚ) / ((M : ℚ) - 1) ∧ (x : ℚ) / ((M : ℚ) - 1) ≤ 1 := by
  have hden : (0 : ℚ) < (M : ℚ) - 1 := by
    have : (8 : ℚ) ≤ (M : ℚ) := by exact_mod_cast hM
    linarith
  constructor
  · apply div_nonneg _ (le_of_lt hden)
    exact_mod_cast hx1
  · rw [div_le_one hden]
    have h2 : (x : ℚ) ≤ ((M - 1 : ℤ) : ℚ) := by exact_mod_cast hx2
    push_cast at h2
    linarith

/-- C3 (amended): with a colour mapper configured and `length ≥ 1`,
`stepSize ≥ 1`, the first argument the generator passes to the mapper is
`-1/(8*length - 1)` — which is negative, outside `[0, 1]` — every
argument lies in the interval `[-1/(8*length - 1), 1]`, and every
argument other than the first lies in `[0, 1]`. -/
theorem C3_cmap_args (pos : ℤ × ℤ) (sig pfx : List Char) (f : ℚ → List Char)
    (L ss : ℤ) (hL : 1 ≤ L) (hss : 1 ≤ ss) :
    ∃ conds args,
      generatePbarConditions ⟨pos, sig, pfx, some f, L, ss⟩ = .ok (conds, args) ∧
      args.head? = some (-1 / (8 * (L : ℚ) - 1)) ∧
      (∀ t ∈ args, -1 / (8 * (L : ℚ) - 1) ≤ t ∧ t ≤ 1) ∧
      (∀ t ∈ args.tail, 0 ≤ t ∧ t ≤ 1) := by
  set cfg : PBarConfigM := ⟨pos, sig, pfx, some f, L, ss⟩ with hcfg
  have hcm : cfg.cmapHex = some f := rfl
  have hM : 8 ≤ cfg.length * divs := by rw [divs_eq]; show 8 ≤ L * 8; omega
  have hcast : ((cfg.length * divs : ℤ) : ℚ) = 8 * (L : ℚ) := by
    rw [divs_eq]
    show ((L * 8 : ℤ) : ℚ) = 8 * (L : ℚ)
    push_cast; ring
  have htailflat : ∀ rest : List ℤ,
      (∀ x ∈ rest, x ∈ stepsFor cfg.length cfg.stepSize) →
      (∀ x ∈ rest, 0 ≤ x) →
      ∀ t ∈ ((rest.map (fun s => (pureCondArgs cfg s).2)).flatten), 0 ≤ t ∧ t ≤ 1 := by
    intro rest hsub hnn t ht
    rw [List.mem_flatten] at ht
    obtain ⟨lst, hlst, htl⟩ := ht
    rw [List.mem_map] at hlst
    obtain ⟨s, hsmem, rfl⟩ := hlst
    have hs0' : 0 ≤ s := hnn s hsmem
    obtain ⟨hs1, hs2⟩ := stepsFor_mem_bounds cfg.length cfg.stepSize s hL hss (hsub s hsmem)
    rcases pureCond_args_cases cfg f hcm s with hargs' | hargs'
    · rw [hargs', List.mem_singleton] at htl
      subst htl
      exact argBound0 (cfg.length * divs) hM s hs0' hs2
    · have hsne : s ≠ cfg.length * divs - 1 := by
        intro hcontra
        rw [hcontra, pureCond_args_at_last cfg f hcm hL] at hargs'
        simp at hargs'
      have hs2' : s + 1 ≤ cfg.length * divs - 1 := by omega
      have hb2 := argBound0 (cfg.length * divs) hM (s + 1) (by omega) hs2'
      rw [hargs'] at htl
      rcases List.mem_pair.mp htl with rfl | rfl
      · exact argBound0 (cfg.length * divs) hM s hs0' hs2
      · constructor
        · have := hb2.1
          push_cast at this ⊢
          convert this using 2
        · have := hb2.2
          push_cast at this ⊢
          convert this using 2
  refine ⟨_, _, genValid cfg hL hss, ?_, ?_, ?_⟩
  · -- the head argument comes from the first loop value -1
    cases hsteps : stepsFor cfg.length cfg.stepSize with
    | nil => exact absurd hsteps (stepsFor_ne_nil _ _ hL hss)
    | cons s0 rest =>
      have hs0 : s0 = -1 := by
        have hh := stepsFor_head? cfg.length cfg.stepSize hL hss
        rw [hsteps] at hh
        simpa using hh
      subst hs0
      rcases pureCond_args_cases cfg f hcm (-1) with hargs | hargs <;>
      · simp only [List.map_cons, List.flatten_cons, hargs]
        rw [List.cons_append]
        simp only [List.head?_cons, Option.some.injEq]
        rw [hcast]
        push_cast
        ring_nf
  · intro t ht
    obtain ⟨s, hs, hts⟩ := gen_args_mem cfg hL hss t ht
    obtain ⟨hs1, hs2⟩ := stepsFor_mem_bounds cfg.length cfg.stepSize s hL hss hs
    have hb1 := argBound (cfg.length * divs) hM s hs1 hs2
    rw [hcast] at hb1
    rcases pureCond_args_cases cfg f hcm s with hargs | hargs
    · rw [hargs] at hts
      rw [List.mem_singleton] at hts
      subst hts
      rw [hcast]
      exact hb1
    · have hsne : s ≠ cfg.length * divs - 1 := by
        intro hcontra
        rw [hcontra, pureCond_args_at_last cfg f hcm hL] at hargs
        simp at hargs
      have hs2' : s + 1 ≤ cfg.length * divs - 1 := by omega
      have hb2 := argBound (cfg.length * divs) hM (s + 1) (by omega) hs2'
      rw [hcast] at hb2
      rw [hargs] at hts
      rcases List.mem_pair.mp hts with rfl | rfl
      · rw [hcast]; exact hb1
      · rw [hcast]
        constructor
        · have := hb2.1
          push_cast at this ⊢
          convert this using 2
        · have := hb2.2
          push_cast at this ⊢
          convert this using 2

  · -- every argument other than the first lies in [0, 1]
    cases hsteps : stepsFor cfg.length cfg.stepSize with
    | nil => exact absurd hsteps (stepsFor_ne_nil _ _ hL hss)
    | cons s0 rest =>
      have hs0 : s0 = -1 := by
        have hh := stepsFor_head? cfg.length cfg.stepSize hL hss
        rw [hsteps] at hh
        simpa using hh
      subst hs0
      have hrest_sub : ∀ x ∈ rest, x ∈ stepsFor cfg.length cfg.stepSize := by
        intro x hx
        rw [hsteps]
        exact List.mem_cons_of_mem _ hx
      have hrest_nn : ∀ x ∈ rest, 0 ≤ x := by
        have hpw := stepsFor_pairwise cfg.length cfg.stepSize hL hss
        rw [hsteps, List.pairwise_cons] at hpw
        intro x hx
        have := hpw.1 x hx
        omega
      intro t ht
      rw [List.map_cons, List.flatten_cons] at ht
      rcases pureCond_args_cases cfg f hcm (-1) with hargs | hargs
      · rw [hargs, List.singleton_append, List.tail_cons] at ht
        exact htailflat rest hrest_sub hrest_nn t ht
      · rw [hargs] at ht
        simp only [List.cons_append, List.singleton_append, List.tail_cons] at ht
        rcases List.mem_cons.mp ht with rfl | ht
        · have hz : (((-1 : ℤ) : ℚ) + 1) / (((cfg.length * divs : ℤ) : ℚ) - 1) = 0 := by
            norm_num
          rw [hz]
          exact ⟨le_refl 0, by norm_num⟩
        · exact htailflat rest hrest_sub hrest_nn t ht

/-- C3 counterexample: with a colour mapper, `length = 1`, `stepSize = 1`,
the first argument passed to the mapper is `-1/7`, which is not in
`[0, 1]` — the mapper is invoked even for the zero-progress loop value
`-1` (its colour is computed and then discarded because the bar prefix is
empty). -/
theorem C3_cex :
    ∃ conds args,
      generatePbarConditions ⟨(0, 0), [], [], some (fun _ => "#8e1dcc".toList), 1, 1⟩ =
        .ok (conds, args) ∧
      args.head? = some (-1 / 7 : ℚ) ∧ ¬ (0 ≤ (-1 / 7 : ℚ)) := by
  set cfg : PBarConfigM := ⟨(0, 0), [], [], some (fun _ => "#8e1dcc".toList), 1, 1⟩ with hcfg
  have hcm : cfg.cmapHex = some (fun _ => "#8e1dcc".toList) := rfl
  refine ⟨_, _, genValid cfg (by norm_num) (by norm_num), ?_, by norm_num⟩
  cases hsteps : stepsFor cfg.length cfg.stepSize with
  | nil => exact absurd hsteps (stepsFor_ne_nil _ _ (by norm_num) (by norm_num))
  | cons s0 rest =>
    have hs0 : s0 = -1 := by
      have hh := stepsFor_head? cfg.length cfg.stepSize (by norm_num) (by norm_num)
      rw [hsteps] at hh
      simpa using hh
    subst hs0
    rcases pureCond_args_cases cfg _ hcm (-1) with hargs | hargs <;>
    · simp only [List.map_cons, List.flatten_cons, hargs]
      rw [List.cons_append]
      simp only [List.head?_cons, Option.some.injEq]
      show ((-1 : ℤ) : ℚ) / (((1 * divs : ℤ) : ℚ) - 1) = -1 / 7
      rw [divs_eq]
      norm_num

/-- C3 witness: the amended bound applied at the concrete configuration
`length = 1`, `stepSize = 1` with a constant colour mapper. -/
theorem C3_witness :
    (1 : ℤ) ≤ 1 ∧
    ∃ conds args,
      generatePbarConditions ⟨(0, 0), [], [], some (fun _ => "#8e1dcc".toList), 1, 1⟩ =
        .ok (conds, args) ∧
      args.head? = some (-1 / (8 * ((1 : ℤ) : ℚ) - 1)) ∧
      (∀ t ∈ args, -1 / (8 * ((1 : ℤ) : ℚ) - 1) ≤ t ∧ t ≤ 1) ∧
      (∀ t ∈ args.tail, 0 ≤ t ∧ t ≤ 1) :=
  ⟨le_refl 1,
    C3_cmap_args (0, 0) [] [] (fun _ => "#8e1dcc".toList) 1 1 (by norm_num) (by norm_num)⟩

/-- Number of block glyphs (characters of `substeps`) in a string. -/
def countBlocks (l : List Char) : ℕ :=
  (l.filter (fun c => decide (c ∈ substeps))).length

theorem countBlocks_append (a b : List Char) :
    countBlocks (a ++ b) = countBlocks a + countBlocks b := by
  simp [countBlocks, List.filter_append]

theorem countBlocks_replicate_block (n : ℕ) :
    countBlocks (List.replicate n fullBlock) = n := by
  simp only [countBlocks, List.filter_replicate]
  rw [if_pos (by decide)]
  simp

theorem countBlocks_of_no_blocks (l : List Char) (h : ∀ c ∈ l, c ∉ substeps) :
    countBlocks l = 0 := by
  simp only [countBlocks, List.length_eq_zero, List.filter_eq_nil_iff]
  intro c hc
  simp [h c hc]

theorem countBlocks_replicate_zero (n : ℕ) :
    countBlocks (List.replicate n '0') = 0 := by
  apply countBlocks_of_no_blocks
  intro c hc
  rw [List.eq_of_mem_replicate hc]
  decide

theorem natStrGo_digits (fuel n : ℕ) : ∀ c ∈ natStrGo fuel n, c.isDigit := by
  induction fuel generalizing n with
  | zero => intro c hc; simp [natStrGo] at hc
  | succ f ih =>
    intro c hc
    rw [natStrGo] at hc
    split at hc
    · rw [List.mem_singleton] at hc
      subst hc
      rename_i h10
      interval_cases n <;> decide
    · rw [List.mem_append] at hc
      rcases hc with hc | hc
      · exact ih (n / 10) c hc
      · rw [List.mem_singleton] at hc
        subst hc
        have h9 : n % 10 ≤ 9 := by omega
        interval_cases h : (n % 10) <;> decide

theorem fmt1f_chars (q : ℚ) : ∀ c ∈ fmt1f q, c.isDigit ∨ c = '.' ∨ c = '-' := by
  intro c hc
  unfold fmt1f at hc
  dsimp only at hc
  split at hc
  · rcases List.mem_cons.mp hc with rfl | hc
    · right; right; rfl
    · rw [List.append_eq, List.mem_append] at hc
      rcases hc with hc | hc
      · exact Or.inl (natStrGo_digits _ _ c hc)
      · rcases List.mem_cons.mp hc with rfl | hc
        · right; left; rfl
        · rw [List.mem_singleton] at hc
          subst hc
          left
          have h9 : (-(rhe (q * 10))).toNat % 10 ≤ 9 := by omega
          interval_cases h : ((-(rhe (q * 10))).toNat % 10) <;> decide
  · rw [List.mem_append] at hc
    rcases hc with hc | hc
    · exact Or.inl (natStrGo_digits _ _ c hc)
    · rcases List.mem_cons.mp hc with rfl | hc
      · right; left; rfl
      · rw [List.mem_singleton] at hc
        subst hc
        left
        have h9 : (rhe (q * 10)).toNat % 10 ≤ 9 := by omega
        interval_cases h : ((rhe (q * 10)).toNat % 10) <;> decide

theorem digit_not_block (c : Char) (h : c.isDigit) : c ∉ substeps := by
  intro hmem
  have : ∀ d ∈ substeps, ¬ d.isDigit := by decide
  exact this c hmem h

theorem fmt1f_no_blocks (q : ℚ) : ∀ c ∈ fmt1f q, c ∉ substeps := by
  intro c hc
  rcases fmt1f_chars q c hc with h | h | h
  · exact digit_not_block c h
  · subst h; decide
  · subst h; decide

theorem rhe_nonneg (q : ℚ) (hq : 0 ≤ q) : 0 ≤ rhe q := by
  have h0 : 0 ≤ ⌊q⌋ := Int.floor_nonneg.mpr hq
  unfold rhe
  split_ifs <;> omega

theorem rhe_le (q : ℚ) (c : ℤ) (hq : q ≤ (c : ℚ)) : rhe q ≤ c := by
  have hf : ⌊q⌋ ≤ c := by
    have := Int.floor_le_floor hq
    rwa [Int.floor_intCast] at this
  have hfq : (⌊q⌋ : ℚ) ≤ q := Int.floor_le q
  unfold rhe
  split_ifs with h1 h2 h3
  · exact hf
  · have hlt : (⌊q⌋ : ℚ) < (c : ℚ) := by linarith
    have : ⌊q⌋ < c := by exact_mod_cast hlt
    omega
  · exact hf
  · have heq : q - ⌊q⌋ = 1/2 := by linarith
    have hlt : (⌊q⌋ : ℚ) < (c : ℚ) := by linarith
    have : ⌊q⌋ < c := by exact_mod_cast hlt
    omega

theorem natStr_len_le3 : ∀ k < 101, 1 ≤ (natStr k).length ∧ (natStr k).length ≤ 3 := by
  decide

theorem fmt1f_len (q : ℚ) (h0 : 0 ≤ q) (h100 : q ≤ 100) :
    3 ≤ (fmt1f q).length ∧ (fmt1f q).length ≤ 5 := by
  have h1 : 0 ≤ rhe (q * 10) := rhe_nonneg _ (by linarith)
  have h2 : rhe (q * 10) ≤ 1000 := rhe_le _ 1000 (by push_cast; linarith)
  unfold fmt1f
  dsimp only
  rw [if_neg (by omega)]
  have hk : (rhe (q * 10)).toNat / 10 < 101 := by omega
  have hlen := natStr_len_le3 _ hk
  simp only [List.length_append, List.length_cons, List.length_nil]
  omega

/-- The unpadded percentage string of the condition for loop value `s`
(the body of the `>5.1f` format in `generate_pbar_conditions`). -/
def numStrFor (cfg : PBarConfigM) (s : ℤ) : List Char :=
  fmt1f (((s + 1 : ℤ) : ℚ) / ((cfg.length * divs : ℤ) : ℚ) * 100)

/-- The number of alignment `"0"` characters appended after the bar for
loop value `s` (`num_postfix_prefix` in the source: the spaces stripped
from the padded percentage). -/
def fillerCount (cfg : PBarConfigM) (s : ℤ) : ℕ := 5 - (numStrFor cfg s).length

/-- The trimmed percentage label (digits, dot and `%`). -/
def labelFor (cfg : PBarConfigM) (s : ℤ) : List Char := numStrFor cfg s ++ ['%']

theorem numStrFor_len (cfg : PBarConfigM) (s : ℤ) (hL : 1 ≤ cfg.length)
    (hs1 : -1 ≤ s) (hs2 : s ≤ cfg.length * divs - 1) :
    3 ≤ (numStrFor cfg s).length ∧ (numStrFor cfg s).length ≤ 5 := by
  have hM : 8 ≤ cfg.length * divs := by rw [divs_eq]; omega
  have hMq : (0 : ℚ) < ((cfg.length * divs : ℤ) : ℚ) := by
    rw [show ((0 : ℚ)) = ((0 : ℤ) : ℚ) from by norm_num]
    exact_mod_cast (by omega : (0 : ℤ) < cfg.length * divs)
  have hup : ((s + 1 : ℤ) : ℚ) ≤ ((cfg.length * divs : ℤ) : ℚ) :=
    by exact_mod_cast (by omega : s + 1 ≤ cfg.length * divs)
  have hlow : (0 : ℚ) ≤ ((s + 1 : ℤ) : ℚ) :=
    by exact_mod_cast (by omega : (0 : ℤ) ≤ s + 1)
  apply fmt1f_len
  · positivity
  · have hq1 : ((s + 1 : ℤ) : ℚ) / ((cfg.length * divs : ℤ) : ℚ) ≤ 1 := by
      rw [div_le_one hMq]
      exact hup
    nlinarith

/-- The raw bar prefix (`bar` before colouring) for loop value `s`. -/
def bar0For (cfg : PBarConfigM) (s : ℤ) : List Char :=
  if s = -1 then []
  else List.replicate (max (s.fdiv divs) 0).toNat fullBlock
         ++ [substeps.getD (s.fmod divs).toNat fullBlock]

/-- `num_after` for loop value `s` (after the decrement in the bar
branch). -/
def numAfterFor (cfg : PBarConfigM) (s : ℤ) : ℤ :=
  if s = -1 then cfg.length - max (s.fdiv divs) 0
  else cfg.length - max (s.fdiv divs) 0 - 1

/-- The bar prefix after optional colouring. -/
def barStrFor (cfg : PBarConfigM) (s : ℤ) : List Char :=
  match cfg.cmapHex with
  | none => bar0For cfg s
  | some f =>
    if (bar0For cfg s).isEmpty then bar0For cfg s
    else colorOpenPat ++ f ((s : ℚ) / (((cfg.length * divs : ℤ) : ℚ) - 1))
           ++ ']' :: bar0For cfg s ++ colorClosePat

/-- The raw tail (`end` before colouring): trailing full blocks plus the
alignment `"0"` filler. -/
def end0For (cfg : PBarConfigM) (s : ℤ) : List Char :=
  List.replicate (numAfterFor cfg s).toNat fullBlock
    ++ List.replicate (fillerCount cfg s) '0'

/-- The tail after optional colouring. -/
def endStrFor (cfg : PBarConfigM) (s : ℤ) : List Char :=
  match cfg.cmapHex with
  | none => end0For cfg s
  | some f =>
    if (end0For cfg s).isEmpty then end0For cfg s
    else colorOpenPat ++ f (((s + 1 : ℤ) : ℚ) / (((cfg.length * divs : ℤ) : ℚ) - 1))
           ++ ']' :: end0For cfg s ++ colorClosePat

theorem pureCond_text_eq (cfg : PBarConfigM) (s : ℤ) :
    (pureCondArgs cfg s).1.text =
      cfg.prefixStr ++ fontOpenTechTag ++ barStrFor cfg s ++ endStrFor cfg s
        ++ fontClosePat ++ "  ".toList ++ labelFor cfg s := by
  cases hcm : cfg.cmapHex <;>
    simp [pureCondArgs, barStrFor, endStrFor, bar0For, end0For, numAfterFor,
      fillerCount, labelFor, numStrFor, hcm] <;>
    split_ifs <;>
    simp_all

theorem countBlocks_nil : countBlocks [] = 0 := rfl

theorem countBlocks_cons_of (c : Char) (h : c ∉ substeps) (l : List Char) :
    countBlocks (c :: l) = countBlocks l := by
  simp [countBlocks, h]

theorem countBlocks_singleton_getD (i : ℕ) (hi : i < substeps.length) (d : Char) :
    countBlocks [substeps.getD i d] = 1 := by
  have hmem : substeps.getD i d ∈ substeps := by
    rw [List.getD_eq_getElem _ _ hi]
    exact List.getElem_mem _
  generalize hx : substeps.getD i d = x at hmem ⊢
  simp [countBlocks, hmem]

theorem countBlocks_fontOpenTechTag : countBlocks fontOpenTechTag = 0 := by decide

theorem countBlocks_fontClosePat : countBlocks fontClosePat = 0 := by decide

theorem countBlocks_colorOpenPat : countBlocks colorOpenPat = 0 := by decide

theorem countBlocks_colorClosePat : countBlocks colorClosePat = 0 := by decide

theorem countBlocks_spaces : countBlocks "  ".toList = 0 := by decide

theorem countBlocks_labelFor (cfg : PBarConfigM) (s : ℤ) :
    countBlocks (labelFor cfg s) = 0 := by
  apply countBlocks_of_no_blocks
  intro c hc
  rw [labelFor, List.mem_append] at hc
  rcases hc with hc | hc
  · exact fmt1f_no_blocks _ c hc
  · rw [List.mem_singleton] at hc
    subst hc
    decide

theorem countBlocks_bar0For (cfg : PBarConfigM) (s : ℤ) :
    countBlocks (bar0For cfg s) =
      if s = -1 then 0 else (max (s.fdiv divs) 0).toNat + 1 := by
  unfold bar0For
  split_ifs with hs
  · rfl
  · rw [countBlocks_append, countBlocks_replicate_block]
    have hfm := fmod_divs_bounds s
    rw [countBlocks_singleton_getD _ (by rw [substeps_length]; omega)]

theorem countBlocks_end0For (cfg : PBarConfigM) (s : ℤ) :
    countBlocks (end0For cfg s) = (numAfterFor cfg s).toNat := by
  unfold end0For
  rw [countBlocks_append, countBlocks_replicate_block, countBlocks_replicate_zero]
  omega

theorem countBlocks_barStrFor (cfg : PBarConfigM) (s : ℤ)
    (hcm : ∀ g, cfg.cmapHex = some g → ∀ t : ℚ, countBlocks (g t) = 0) :
    countBlocks (barStrFor cfg s) = countBlocks (bar0For cfg s) := by
  unfold barStrFor
  cases hc : cfg.cmapHex with
  | none => rfl
  | some f =>
    split_ifs with hempty
    · rfl
    · simp [countBlocks_append, countBlocks_colorOpenPat, countBlocks_colorClosePat,
        hcm f hc, countBlocks_cons_of ']' (by decide)]

theorem countBlocks_endStrFor (cfg : PBarConfigM) (s : ℤ)
    (hcm : ∀ g, cfg.cmapHex = some g → ∀ t : ℚ, countBlocks (g t) = 0) :
    countBlocks (endStrFor cfg s) = countBlocks (end0For cfg s) := by
  unfold endStrFor
  cases hc : cfg.cmapHex with
  | none => rfl
  | some f =>
    split_ifs with hempty
    · rfl
    · simp [countBlocks_append, countBlocks_colorOpenPat, countBlocks_colorClosePat,
        hcm f hc, countBlocks_cons_of ']' (by decide)]

theorem numBefore_numAfter (cfg : PBarConfigM) (s : ℤ) (hL : 1 ≤ cfg.length)
    (hs1 : -1 ≤ s) (hs2 : s ≤ cfg.length * divs - 1) :
    (if s = -1 then 0 else (max (s.fdiv divs) 0).toNat + 1) + (numAfterFor cfg s).toNat
      = cfg.length.toNat := by
  unfold numAfterFor
  by_cases hs : s = -1
  · subst hs
    rw [if_pos rfl, if_pos rfl]
    have : (-1 : ℤ).fdiv divs = -1 := by rw [divs_eq]; decide
    rw [this]
    omega
  · rw [if_neg hs, if_neg hs]
    have hs0 : 0 ≤ s := by omega
    have hfd : s.fdiv divs = s / divs := Int.fdiv_eq_ediv _ (by rw [divs_eq]; norm_num)
    have hnb0 : 0 ≤ s.fdiv divs := by
      rw [hfd, divs_eq]
      exact Int.ediv_nonneg hs0 (by norm_num)
    have hnble : s.fdiv divs ≤ cfg.length - 1 := by
      rw [hfd, divs_eq]
      rw [divs_eq] at hs2
      omega
    omega

theorem countBlocks_pureCond_text (cfg : PBarConfigM) (s : ℤ) (hL : 1 ≤ cfg.length)
    (hs1 : -1 ≤ s) (hs2 : s ≤ cfg.length * divs - 1)
    (hcm : ∀ g, cfg.cmapHex = some g → ∀ t : ℚ, countBlocks (g t) = 0) :
    countBlocks (pureCondArgs cfg s).1.text =
      countBlocks cfg.prefixStr + cfg.length.toNat := by
  rw [pureCond_text_eq]
  rw [countBlocks_append, countBlocks_append, countBlocks_append, countBlocks_append,
    countBlocks_append, countBlocks_append]
  rw [countBlocks_fontOpenTechTag, countBlocks_fontClosePat, countBlocks_spaces,
    countBlocks_labelFor, countBlocks_barStrFor cfg s hcm, countBlocks_endStrFor cfg s hcm,
    countBlocks_bar0For, countBlocks_end0For]
  have := numBefore_numAfter cfg s hL hs1 hs2
  omega

theorem pureCond_text_decomp (cfg : PBarConfigM) (s : ℤ) :
    ∃ pre suf,
      (pureCondArgs cfg s).1.text =
        cfg.prefixStr ++ fontOpenTechTag ++ pre
          ++ List.replicate (fillerCount cfg s) '0' ++ suf
          ++ fontClosePat ++ "  ".toList ++ labelFor cfg s := by
  rw [pureCond_text_eq]
  unfold endStrFor
  cases hc : cfg.cmapHex with
  | none =>
    refine ⟨barStrFor cfg s ++ List.replicate (numAfterFor cfg s).toNat fullBlock, [], ?_⟩
    unfold end0For
    simp [List.append_assoc]
  | some f =>
    split_ifs with hempty
    · refine ⟨barStrFor cfg s ++ List.replicate (numAfterFor cfg s).toNat fullBlock, [], ?_⟩
      unfold end0For
      simp [List.append_assoc]
    · refine ⟨barStrFor cfg s ++ colorOpenPat
        ++ f (((s + 1 : ℤ) : ℚ) / (((cfg.length * divs : ℤ) : ℚ) - 1))
        ++ [']'] ++ List.replicate (numAfterFor cfg s).toNat fullBlock,
        colorClosePat, ?_⟩
      unfold end0For
      simp [List.append_assoc]

/-- C9 (amended): for configurations with `length ≥ 1`, `stepSize ≥ 1`
whose prefix contains no block glyph and whose colour mapper (if any)
emits only block-free colour strings, every generated condition's text
contains exactly `length` block glyphs; the alignment filler is a run of
exactly `5 - len(numeric label)` `"0"` characters, and block glyphs,
filler zeros and label characters total `length + 6` for every condition
in the list. -/
theorem C9_constant_width (pos : ℤ × ℤ) (sig pfx : List Char)
    (cm : Option (ℚ → List Char)) (L ss : ℤ) (hL : 1 ≤ L) (hss : 1 ≤ ss)
    (hpfx : ∀ c ∈ pfx, c ∉ substeps)
    (hcm : ∀ g, cm = some g → ∀ t : ℚ, ∀ c ∈ g t, c ∉ substeps) :
    ∃ conds args,
      generatePbarConditions ⟨pos, sig, pfx, cm, L, ss⟩ = .ok (conds, args) ∧
      ∀ c ∈ conds, ∃ s : ℤ,
        c.constant = s + 1 ∧
        countBlocks c.text = L.toNat ∧
        3 ≤ (numStrFor ⟨pos, sig, pfx, cm, L, ss⟩ s).length ∧
        (numStrFor ⟨pos, sig, pfx, cm, L, ss⟩ s).length ≤ 5 ∧
        fillerCount ⟨pos, sig, pfx, cm, L, ss⟩ s =
          5 - (numStrFor ⟨pos, sig, pfx, cm, L, ss⟩ s).length ∧
        (∃ pre suf, c.text = pfx ++ fontOpenTechTag ++ pre
            ++ List.replicate (fillerCount ⟨pos, sig, pfx, cm, L, ss⟩ s) '0' ++ suf
            ++ fontClosePat ++ "  ".toList ++ labelFor ⟨pos, sig, pfx, cm, L, ss⟩ s) ∧
        countBlocks c.text + fillerCount ⟨pos, sig, pfx, cm, L, ss⟩ s
            + (labelFor ⟨pos, sig, pfx, cm, L, ss⟩ s).length = L.toNat + 6 := by
  set cfg : PBarConfigM := ⟨pos, sig, pfx, cm, L, ss⟩ with hcfg
  have hpfx0 : countBlocks cfg.prefixStr = 0 := countBlocks_of_no_blocks _ hpfx
  have hcm0 : ∀ g, cfg.cmapHex = some g → ∀ t : ℚ, countBlocks (g t) = 0 :=
    fun g hg t => countBlocks_of_no_blocks _ (hcm g hg t)
  refine ⟨_, _, genValid cfg hL hss, ?_⟩
  intro c hc
  obtain ⟨c', hc', htext, hconst⟩ := mem_postProcess c _ hc
  obtain ⟨s, hs, rfl⟩ := List.mem_map.mp hc'
  obtain ⟨hs1, hs2⟩ := stepsFor_mem_bounds cfg.length cfg.stepSize s hL hss hs
  obtain ⟨hlen3, hlen5⟩ := numStrFor_len cfg s hL hs1 hs2
  refine ⟨s, ?_, ?_, hlen3, hlen5, rfl, ?_, ?_⟩
  · rw [hconst, pureCond_constant]
  · rw [htext, countBlocks_pureCond_text cfg s hL hs1 hs2 hcm0, hpfx0]
    show 0 + L.toNat = L.toNat
    omega
  · rw [htext]
    exact pureCond_text_decomp cfg s
  · rw [htext, countBlocks_pureCond_text cfg s hL hs1 hs2 hcm0, hpfx0]
    simp only [labelFor, List.length_append, List.length_cons, List.length_nil,
      fillerCount]
    omega

/-- C9 counterexample: with a prefix that itself contains a block glyph
(`"█"`, `length = 1`, `stepSize = 8`), a generated condition's text
contains 2 block glyphs, not `length = 1`. -/
theorem C9_cex :
    ∃ conds args c,
      generatePbarConditions ⟨(0, 0), [], "█".toList, none, 1, 8⟩ = .ok (conds, args) ∧
      c ∈ conds ∧ countBlocks c.text = 2 ∧ (2 : ℕ) ≠ (1 : ℤ).toNat := by
  set cfg : PBarConfigM := ⟨(0, 0), [], "█".toList, none, 1, 8⟩ with hcfg
  have hL : (1 : ℤ) ≤ cfg.length := by norm_num
  have hss : (1 : ℤ) ≤ cfg.stepSize := by norm_num
  have hne := postProcess_ne_nil _ (condsFor_ne_nil cfg hL hss)
  obtain ⟨c, hc⟩ := List.exists_mem_of_ne_nil _ hne
  refine ⟨_, _, c, genValid cfg hL hss, hc, ?_, by norm_num⟩
  obtain ⟨c', hc', htext, _⟩ := mem_postProcess c _ hc
  obtain ⟨s, hs, rfl⟩ := List.mem_map.mp hc'
  obtain ⟨hs1, hs2⟩ := stepsFor_mem_bounds cfg.length cfg.stepSize s hL hss hs
  rw [htext, countBlocks_pureCond_text cfg s hL hs1 hs2 (by intro g hg; simp at hg)]
  rfl

/-- C9 witness: the amended statement applied at the configuration
`length = 10`, `stepSize = 1`, empty prefix, no colour mapper. -/
theorem C9_witness :
    (1 : ℤ) ≤ 10 ∧
    ∃ conds args,
      generatePbarConditions ⟨(0, 0), "parameter-0".toList, [], none, 10, 1⟩ =
        .ok (conds, args) ∧
      ∀ c ∈ conds, ∃ s : ℤ,
        c.constant = s + 1 ∧
        countBlocks c.text = (10 : ℤ).toNat ∧
        3 ≤ (numStrFor ⟨(0, 0), "parameter-0".toList, [], none, 10, 1⟩ s).length ∧
        (numStrFor ⟨(0, 0), "parameter-0".toList, [], none, 10, 1⟩ s).length ≤ 5 ∧
        fillerCount ⟨(0, 0), "parameter-0".toList, [], none, 10, 1⟩ s =
          5 - (numStrFor ⟨(0, 0), "parameter-0".toList, [], none, 10, 1⟩ s).length ∧
        (∃ pre suf, c.text = [] ++ fontOpenTechTag ++ pre
            ++ List.replicate (fillerCount ⟨(0, 0), "parameter-0".toList, [], none, 10, 1⟩ s) '0' ++ suf
            ++ fontClosePat ++ "  ".toList
            ++ labelFor ⟨(0, 0), "parameter-0".toList, [], none, 10, 1⟩ s) ∧
        countBlocks c.text + fillerCount ⟨(0, 0), "parameter-0".toList, [], none, 10, 1⟩ s
            + (labelFor ⟨(0, 0), "parameter-0".toList, [], none, 10, 1⟩ s).length
          = (10 : ℤ).toNat + 6 :=
  ⟨by norm_num,
    C9_constant_width (0, 0) "parameter-0".toList [] none 10 1 (by norm_num) (by norm_num)
      (by intro c hc; simp at hc)
      (by intro g hg; simp at hg)⟩

/-- C4: the claim matches the comment on `INNERMOST_COLOR_RE` ("captures 6
or 8 digit hex codes") and the spec's grammar, but the regex quantifier is
`{6,8}`, which also accepts 7 hex digits: the renderer colours
`[color=#1234567]x[/color]` (using the last six digits `234567` as RGB)
instead of passing it through as literal text. -/
theorem C4_seven_digit_hex :
    renderMarkup "[color=#1234567]x[/color]".toList =
      escChar :: "[38;2;35;69;103m".toList ++ 'x' :: escChar :: "[0m".toList ∧
    renderMarkup "[color=#1234567]x[/color]".toList ≠ "[color=#1234567]x[/color]".toList := by
  constructor <;> decide

theorem sw_sound (p : List Char) : ∀ l, sw p l = true → l = p ++ l.drop p.length := by
  induction p with
  | nil => intro l _; simp
  | cons pc ps ih =>
    intro l h
    cases l with
    | nil => simp [sw] at h
    | cons c cs =>
      rw [sw, Bool.and_eq_true, beq_iff_eq] at h
      obtain ⟨rfl, hsw⟩ := h
      have := ih cs hsw
      simp only [List.length_cons, List.drop_succ_cons]
      rw [List.cons_append, ← this]

theorem matchColorOpen_sound (l hx rest : List Char)
    (h : matchColorOpen l = some (hx, rest)) :
    l = hx ++ ']' :: rest ∧ ∀ c ∈ hx, c = '#' ∨ isHexDigitC c := by
  unfold matchColorOpen at h
  split at h
  case h_2 => simp at h
  case h_1 r =>
    have reassemble : ∀ k : ℕ, (r.take k).all isHexDigitC = true → sw [']'] (r.drop k) = true →
        ('#' :: r = ('#' :: r.take k) ++ ']' :: (r.drop k).drop 1 ∧
         ∀ c ∈ '#' :: r.take k, c = '#' ∨ isHexDigitC c) := by
      intro k hall hsw
      constructor
      · have hdk := sw_sound [']'] (r.drop k) hsw
        simp only [List.length_singleton] at hdk
        calc '#' :: r = '#' :: (r.take k ++ r.drop k) := by rw [List.take_append_drop]
          _ = '#' :: (r.take k ++ ([']'] ++ (r.drop k).drop 1)) := by
                conv_lhs => rw [hdk]
          _ = ('#' :: r.take k) ++ ']' :: (r.drop k).drop 1 := by simp
      · intro c hc
        rcases List.mem_cons.mp hc with rfl | hc
        · exact Or.inl rfl
        · exact Or.inr (by
            rw [List.all_eq_true] at hall
            exact hall c hc)
    split_ifs at h with h8 h7 h6
    · rw [Bool.and_eq_true, Bool.and_eq_true] at h8
      obtain ⟨⟨_, hall⟩, hsw⟩ := h8
      simp only [Option.some.injEq, Prod.mk.injEq] at h
      obtain ⟨hhx, hrest⟩ := h
      rw [← hhx, ← hrest]
      exact reassemble 8 hall hsw
    · rw [Bool.and_eq_true, Bool.and_eq_true] at h7
      obtain ⟨⟨_, hall⟩, hsw⟩ := h7
      simp only [Option.some.injEq, Prod.mk.injEq] at h
      obtain ⟨hhx, hrest⟩ := h
      rw [← hhx, ← hrest]
      exact reassemble 7 hall hsw
    · rw [Bool.and_eq_true, Bool.and_eq_true] at h6
      obtain ⟨⟨_, hall⟩, hsw⟩ := h6
      simp only [Option.some.injEq, Prod.mk.injEq] at h
      obtain ⟨hhx, hrest⟩ := h
      rw [← hhx, ← hrest]
      exact reassemble 6 hall hsw

theorem scanInner_sound : ∀ (l inner post : List Char),
    scanInner l = some (inner, post) → l = inner ++ colorClosePat ++ post := by
  intro l
  induction l with
  | nil => intro inner post h; simp [scanInner] at h
  | cons c r ih =>
    intro inner post h
    rw [scanInner] at h
    split_ifs at h with h1 h2
    · simp only [Option.some.injEq, Prod.mk.injEq] at h
      obtain ⟨rfl, rfl⟩ := h
      have := sw_sound colorClosePat (c :: r) h1
      rw [show colorClosePat.length = 8 from by decide] at this
      simpa using this
    · rw [Option.map_eq_some'] at h
      obtain ⟨a, ha, heq⟩ := h
      rw [Prod.mk.injEq] at heq
      obtain ⟨rfl, rfl⟩ := heq
      have := ih a.1 a.2 (by rw [ha])
      simp [this]

theorem findColorMatch_sound : ∀ (l : List Char) (m : CMatch),
    findColorMatch l = some m →
    l = m.pre ++ colorOpenPat ++ m.hex ++ ']' :: (m.inner ++ colorClosePat ++ m.post) ∧
    ∀ c ∈ m.hex, c = '#' ∨ isHexDigitC c := by
  intro l
  induction l with
  | nil => intro m h; simp [findColorMatch] at h
  | cons c r ih =>
    intro m h
    rw [findColorMatch] at h
    by_cases hsw : sw colorOpenPat (c :: r) = true
    · rw [if_pos hsw] at h
      have hdec := sw_sound colorOpenPat (c :: r) hsw
      rw [show colorOpenPat.length = 7 from by decide] at hdec
      cases hmo : matchColorOpen ((c :: r).drop 7) with
      | some p =>
        obtain ⟨hx, afterOpen⟩ := p
        rw [hmo] at h
        dsimp only at h
        have hmos := matchColorOpen_sound _ _ _ hmo
        cases hsi : scanInner afterOpen with
        | some q =>
          obtain ⟨inner, post⟩ := q
          rw [hsi] at h
          simp only [Option.some.injEq] at h
          subst h
          refine ⟨?_, hmos.2⟩
          have hscan := scanInner_sound afterOpen inner post hsi
          simp only
          rw [hdec, hmos.1, hscan]
          simp
        | none =>
          rw [hsi] at h
          rw [Option.map_eq_some'] at h
          obtain ⟨m', hm', rfl⟩ := h
          obtain ⟨h1, h2⟩ := ih m' hm'
          exact ⟨by simp [h1], h2⟩
      | none =>
        rw [hmo] at h
        dsimp only at h
        rw [Option.map_eq_some'] at h
        obtain ⟨m', hm', rfl⟩ := h
        obtain ⟨h1, h2⟩ := ih m' hm'
        exact ⟨by simp [h1], h2⟩
    · rw [if_neg hsw] at h
      rw [Option.map_eq_some'] at h
      obtain ⟨m', hm', rfl⟩ := h
      obtain ⟨h1, h2⟩ := ih m' hm'
      exact ⟨by simp [h1], h2⟩

theorem countRB_append (a b : List Char) : countRB (a ++ b) = countRB a + countRB b := by
  simp [countRB, List.filter_append]

theorem countRB_eq_zero (l : List Char) (h : ∀ c ∈ l, c ≠ ']') : countRB l = 0 := by
  induction l with
  | nil => rfl
  | cons c r ih =>
    have hc := h c (List.mem_cons_self c r)
    have hr := ih (fun x hx => h x (List.mem_cons_of_mem c hx))
    simp [countRB, List.filter_cons, hc] at hr ⊢
    exact hr

theorem countRB_cons (c : Char) (l : List Char) :
    countRB (c :: l) = (if c = ']' then 1 else 0) + countRB l := by
  by_cases hc : c = ']' <;> simp [countRB, List.filter_cons, hc, Nat.add_comm]

theorem countRB_natStr (n : ℕ) : countRB (natStr n) = 0 := by
  refine countRB_eq_zero _ (fun c hc hrb => ?_)
  have := natStrGo_digits (n + 1) n c hc
  rw [hrb] at this
  exact absurd this (by decide)

theorem countRB_ansiOfHex (hx : List Char) : countRB (ansiOfHex hx) = 0 := by
  refine countRB_eq_zero _ (fun c hc hrb => ?_)
  subst hrb
  rw [ansiOfHex] at hc
  simp only [List.mem_cons, List.mem_append, List.mem_singleton] at hc
  rw [or_assoc, or_assoc, or_assoc, or_assoc, or_assoc, or_assoc, or_assoc] at hc
  rcases hc with h | h | h | h | h | h | h | h | h <;>
    first
      | exact absurd h (by decide)
      | exact absurd (natStrGo_digits _ _ _ h) (by decide)

theorem countRB_hex (hx : List Char) (h : ∀ c ∈ hx, c = '#' ∨ isHexDigitC c) :
    countRB hx = 0 := by
  refine countRB_eq_zero _ (fun c hc hrb => ?_)
  rcases h c hc with h1 | h1
  · rw [hrb] at h1; exact absurd h1 (by decide)
  · rw [hrb] at h1; exact absurd h1 (by decide)

/-- Each replacement performed by the colour loop removes exactly the two
`]` characters of the matched open and close tags. -/
theorem step_decreases (l : List Char) (m : CMatch) (h : findColorMatch l = some m) :
    countRB (m.pre ++ ansiOfHex m.hex ++ m.inner ++ ansiReset ++ m.post) + 2 = countRB l := by
  obtain ⟨hdec, hhex⟩ := findColorMatch_sound l m h
  rw [hdec]
  rw [countRB_append, countRB_append, countRB_append, countRB_append,
    countRB_append, countRB_append, countRB_append, countRB_cons, countRB_append,
    countRB_append]
  rw [countRB_ansiOfHex, countRB_hex m.hex hhex,
    show countRB ansiReset = 0 from by decide,
    show countRB colorOpenPat = 0 from by decide,
    show countRB colorClosePat = 1 from by decide]
  simp
  omega

theorem resolveFuel_of_none (l : List Char) (h : findColorMatch l = none) :
    ∀ n, resolveFuel n l = l := by
  intro n
  cases n with
  | zero => rfl
  | succ k => simp only [resolveFuel, h]

theorem fuel_reaches (fuel : ℕ) : ∀ l : List Char, countRB l ≤ fuel →
    findColorMatch (resolveFuel fuel l) = none ∧
    ∀ extra, resolveFuel (fuel + extra) l = resolveFuel fuel l := by
  induction fuel with
  | zero =>
    intro l hl
    have hnone : findColorMatch l = none := by
      cases hm : findColorMatch l with
      | none => rfl
      | some m =>
        have := step_decreases l m hm
        omega
    exact ⟨hnone, fun extra => by
      rw [resolveFuel_of_none l hnone, resolveFuel_of_none l hnone]⟩
  | succ f ih =>
    intro l hl
    cases hm : findColorMatch l with
    | none =>
      refine ⟨?_, fun extra => by
        rw [resolveFuel_of_none l hm, resolveFuel_of_none l hm]⟩
      rw [resolveFuel_of_none l hm]
      exact hm
    | some m =>
      have hstep := step_decreases l m hm
      have hle : countRB (m.pre ++ ansiOfHex m.hex ++ m.inner ++ ansiReset ++ m.post) ≤ f := by
        omega
      obtain ⟨h1, h2⟩ := ih _ hle
      constructor
      · simp only [resolveFuel, hm]
        exact h1
      · intro extra
        rw [show f + 1 + extra = (f + extra) + 1 from by omega]
        simp only [resolveFuel, hm]
        exact h2 extra

/-- C8: The markup renderer is total.  The innermost-colour resolution loop
reaches a state with no remaining match within `countRB l` iterations (each
replacement removes exactly the two `]` characters of the matched open and
close tags, `step_decreases`), extra fuel beyond that bound changes
nothing, and the final output of both the colour pass and the whole
renderer is a fixed point of the loop's search, so the Python `while True`
loop always exits via its `break` and `pretty_print_markup` returns a
result for every input. -/
theorem C8_renderer_total : ∀ l : List Char,
    (∀ extra : ℕ, resolveFuel (countRB l + extra) l = renderColors l) ∧
    findColorMatch (renderColors l) = none ∧
    findColorMatch (renderMarkup l) = none := by
  intro l
  refine ⟨fun extra => (fuel_reaches (countRB l) l le_rfl).2 extra,
    (fuel_reaches (countRB l) l le_rfl).1, ?_⟩
  rw [renderMarkup]
  exact (fuel_reaches _ _ le_rfl).1

theorem sw_self_append : ∀ (p r : List Char), sw p (p ++ r) = true := by
  intro p
  induction p with
  | nil => intro r; rfl
  | cons c cs ih => intro r; simp [sw, ih r]

theorem hasOcc_append_pat : ∀ (pat a b : List Char), hasOcc pat (a ++ pat ++ b) = true := by
  intro pat a
  induction a with
  | nil =>
    intro b
    cases pat with
    | nil => cases b <;> simp [hasOcc, sw]
    | cons p ps =>
      rw [List.nil_append, List.cons_append]
      show (sw (p :: ps) (p :: (ps ++ b)) || hasOcc (p :: ps) (ps ++ b)) = true
      rw [← List.cons_append, sw_self_append]
      simp
  | cons x a ih =>
    intro b
    rw [List.cons_append]
    show (sw pat (x :: (a ++ pat ++ b)) || hasOcc pat (a ++ pat ++ b)) = true
    rw [ih b]
    simp

theorem findColorMatch_none_of_no_close (l : List Char)
    (h : hasOcc colorClosePat l = false) : findColorMatch l = none := by
  cases hm : findColorMatch l with
  | none => rfl
  | some m =>
    exfalso
    have hdec := (findColorMatch_sound l m hm).1
    have : l = (m.pre ++ colorOpenPat ++ m.hex ++ [']'] ++ m.inner) ++ colorClosePat
        ++ m.post := by
      rw [hdec]; simp
    rw [this, hasOcc_append_pat] at h
    exact absurd h (by decide)

/-- C6 (amended): the colour-resolution pass leaves any input containing no
`[/color]` completely unchanged — in particular an unterminated colour-open
tag and all other colour markup pass through verbatim.  For the full
renderer (`pretty_print_markup`) the unqualified claim is false: removing a
font-open tag can create a `[/color]` out of previously inert text, after
which an "unterminated" colour-open of the original input is resolved
(`C6_cex`). -/
theorem C6_unmatched_passthrough (l : List Char)
    (h : hasOcc colorClosePat l = false) : renderColors l = l := by
  rw [renderColors]
  exact resolveFuel_of_none l (findColorMatch_none_of_no_close l h) _

/-- C6 counterexample: the input contains a colour-open tag and no
`[/color]` at all, yet the full renderer does not leave its colour markup
untouched — stripping `[font=q]` glues `[/co` and `lor]` into `[/color]`,
and the colour-open is resolved into an ANSI escape. -/
theorem C6_cex :
    hasOcc colorClosePat ("[color=#FF0000]x[/co[font=q]lor]".toList) = false ∧
    hasOcc colorOpenPat ("[color=#FF0000]x[/co[font=q]lor]".toList) = true ∧
    hasOcc colorOpenPat (renderMarkup ("[color=#FF0000]x[/co[font=q]lor]".toList)) = false ∧
    renderMarkup ("[color=#FF0000]x[/co[font=q]lor]".toList) ≠
      "[color=#FF0000]x[/co[font=q]lor]".toList := by
  refine ⟨by decide, by decide, by decide, by decide⟩

theorem C6_witness :
    hasOcc colorClosePat ("[color=#FF0000]hello".toList) = false ∧
    renderColors ("[color=#FF0000]hello".toList) = "[color=#FF0000]hello".toList :=
  ⟨by decide, C6_unmatched_passthrough _ (by decide)⟩

/-- Safety for the colour scan: every `[` is followed (inside the list) by
a character other than `/` and `c`, so neither `[color=` nor `[/color]`
can start at any position, even with further text appended. -/
def lbSafe : List Char → Bool
  | [] => true
  | c :: r =>
    if c = '[' then
      match r with
      | [] => false
      | d :: _ => !(d == '/' || d == 'c') && lbSafe r
    else lbSafe r

/-- Safety for font-open removal: every `[` is followed by a character
other than `f`, so `[font=` can start at no position. -/
def fsSafe : List Char → Bool
  | [] => true
  | c :: r =>
    if c = '[' then
      match r with
      | [] => false
      | d :: _ => !(d == 'f') && fsSafe r
    else fsSafe r

/-- Safety for `[/font]` removal: every `[` is either followed by a
character other than `/`, or by `/` and then a character other than
`f`. -/
def fcSafe : List Char → Bool
  | [] => true
  | c :: r =>
    if c = '[' then
      match r with
      | [] => false
      | d :: r2 =>
        if d = '/' then
          match r2 with
          | [] => false
          | e :: _ => !(e == 'f') && fcSafe r
        else fcSafe r
    else fcSafe r

/-- Every `[` is followed by a decimal digit — true of ANSI escape
sequences and of tag-free text, and strong enough to rule out all four
markup tags. -/
def lbDigit : List Char → Bool
  | [] => true
  | c :: r =>
    if c = '[' then
      match r with
      | [] => false
      | d :: _ => d.isDigit && lbDigit r
    else lbDigit r

theorem lbSafe_cons (c : Char) (r : List Char) :
    lbSafe (c :: r) =
      if c = '[' then
        match r with
        | [] => false
        | d :: _ => !(d == '/' || d == 'c') && lbSafe r
      else lbSafe r := rfl

theorem fsSafe_cons (c : Char) (r : List Char) :
    fsSafe (c :: r) =
      if c = '[' then
        match r with
        | [] => false
        | d :: r2 => !(d == 'f') && fsSafe r
      else fsSafe r := rfl

theorem fcSafe_cons (c : Char) (r : List Char) :
    fcSafe (c :: r) =
      if c = '[' then
        match r with
        | [] => false
        | d :: r2 =>
          if d = '/' then
            match r2 with
            | [] => false
            | e :: _ => !(e == 'f') && fcSafe r
          else fcSafe r
      else fcSafe r := rfl

theorem lbDigit_cons (c : Char) (r : List Char) :
    lbDigit (c :: r) =
      if c = '[' then
        match r with
        | [] => false
        | d :: _ => d.isDigit && lbDigit r
      else lbDigit r := rfl

theorem sw_head_false (p c : Char) (ps l : List Char) (h : c ≠ p) :
    sw (p :: ps) (c :: l) = false := by
  show (p == c && sw ps l) = false
  rw [beq_eq_false_iff_ne.mpr (Ne.symm h), Bool.false_and]

theorem sw_second_false (p q c d : Char) (ps l : List Char) (h : d ≠ q) :
    sw (p :: q :: ps) (c :: d :: l) = false := by
  show (p == c && (q == d && sw ps l)) = false
  rw [beq_eq_false_iff_ne.mpr (Ne.symm h), Bool.false_and, Bool.and_false]

theorem sw_third_false (p q x c d e : Char) (ps l : List Char) (h : e ≠ x) :
    sw (p :: q :: x :: ps) (c :: d :: e :: l) = false := by
  show (p == c && (q == d && (x == e && sw ps l))) = false
  rw [beq_eq_false_iff_ne.mpr (Ne.symm h), Bool.false_and, Bool.and_false,
    Bool.and_false]

theorem colorOpenPat_eq : colorOpenPat = '[' :: 'c' :: "olor=".toList := by decide

theorem colorClosePat_eq : colorClosePat = '[' :: '/' :: "color]".toList := by decide

theorem fontOpenPat_eq : fontOpenPat = '[' :: 'f' :: "ont=".toList := by decide

theorem fontClosePat_eq : fontClosePat = '[' :: '/' :: 'f' :: "ont]".toList := by decide

theorem lbSafe_of_no_lb (l : List Char) (h : '[' ∉ l) : lbSafe l = true := by
  induction l with
  | nil => rfl
  | cons c r ih =>
    have hc : c ≠ '[' := fun hc => h (hc ▸ List.mem_cons_self c r)
    rw [lbSafe_cons, if_neg hc]
    exact ih (fun hm => h (List.mem_cons_of_mem c hm))

theorem fsSafe_of_no_lb (l : List Char) (h : '[' ∉ l) : fsSafe l = true := by
  induction l with
  | nil => rfl
  | cons c r ih =>
    have hc : c ≠ '[' := fun hc => h (hc ▸ List.mem_cons_self c r)
    rw [fsSafe_cons, if_neg hc]
    exact ih (fun hm => h (List.mem_cons_of_mem c hm))

theorem fcSafe_of_no_lb (l : List Char) (h : '[' ∉ l) : fcSafe l = true := by
  induction l with
  | nil => rfl
  | cons c r ih =>
    have hc : c ≠ '[' := fun hc => h (hc ▸ List.mem_cons_self c r)
    rw [fcSafe_cons, if_neg hc]
    exact ih (fun hm => h (List.mem_cons_of_mem c hm))

theorem lbDigit_of_no_lb (l : List Char) (h : '[' ∉ l) : lbDigit l = true := by
  induction l with
  | nil => rfl
  | cons c r ih =>
    have hc : c ≠ '[' := fun hc => h (hc ▸ List.mem_cons_self c r)
    rw [lbDigit_cons, if_neg hc]
    exact ih (fun hm => h (List.mem_cons_of_mem c hm))

theorem lbSafe_append (a b : List Char) (ha : lbSafe a = true) (hb : lbSafe b = true) :
    lbSafe (a ++ b) = true := by
  induction a with
  | nil => simpa
  | cons c r ih =>
    rw [lbSafe_cons] at ha
    rw [List.cons_append, lbSafe_cons]
    by_cases hc : c = '['
    · rw [if_pos hc] at ha ⊢
      cases r with
      | nil => simp at ha
      | cons d r2 =>
        rw [List.cons_append]
        dsimp only at ha ⊢
        rw [Bool.and_eq_true] at ha
        rw [ha.1, ← List.cons_append, ih ha.2]
        rfl
    · rw [if_neg hc] at ha ⊢
      exact ih ha

theorem fsSafe_append (a b : List Char) (ha : fsSafe a = true) (hb : fsSafe b = true) :
    fsSafe (a ++ b) = true := by
  induction a with
  | nil => simpa
  | cons c r ih =>
    rw [fsSafe_cons] at ha
    rw [List.cons_append, fsSafe_cons]
    by_cases hc : c = '['
    · rw [if_pos hc] at ha ⊢
      cases r with
      | nil => simp at ha
      | cons d r2 =>
        rw [List.cons_append]
        dsimp only at ha ⊢
        rw [Bool.and_eq_true] at ha
        rw [ha.1, ← List.cons_append, ih ha.2]
        rfl
    · rw [if_neg hc] at ha ⊢
      exact ih ha

theorem lbDigit_append (a b : List Char) (ha : lbDigit a = true) (hb : lbDigit b = true) :
    lbDigit (a ++ b) = true := by
  induction a with
  | nil => simpa
  | cons c r ih =>
    rw [lbDigit_cons] at ha
    rw [List.cons_append, lbDigit_cons]
    by_cases hc : c = '['
    · rw [if_pos hc] at ha ⊢
      cases r with
      | nil => simp at ha
      | cons d r2 =>
        rw [List.cons_append]
        dsimp only at ha ⊢
        rw [Bool.and_eq_true] at ha
        rw [ha.1, ← List.cons_append, ih ha.2]
        rfl
    · rw [if_neg hc] at ha ⊢
      exact ih ha

theorem fcSafe_append (a b : List Char) (ha : fcSafe a = true) (hb : fcSafe b = true) :
    fcSafe (a ++ b) = true := by
  induction a with
  | nil => simpa
  | cons c r ih =>
    rw [fcSafe_cons] at ha
    rw [List.cons_append, fcSafe_cons]
    by_cases hc : c = '['
    · rw [if_pos hc] at ha ⊢
      cases r with
      | nil => simp at ha
      | cons d r2 =>
        rw [List.cons_append]
        dsimp only at ha ⊢
        by_cases hd : d = '/'
        · rw [if_pos hd] at ha ⊢
          cases r2 with
          | nil => simp at ha
          | cons e r3 =>
            rw [List.cons_append]
            dsimp only at ha ⊢
            rw [Bool.and_eq_true] at ha
            rw [ha.1]
            have h2 : fcSafe (d :: (e :: (r3 ++ b))) = true := ih ha.2
            rw [h2]
            rfl
        · rw [if_neg hd] at ha ⊢
          exact ih ha
    · rw [if_neg hc] at ha ⊢
      exact ih ha

theorem isDigit_ne (d x : Char) (hd : d.isDigit = true) (hx : x.isDigit = false) :
    (d == x) = false := by
  rw [beq_eq_false_iff_ne]
  intro h
  rw [h] at hd
  rw [hd] at hx
  exact absurd hx (by decide)

theorem lbDigit_lbSafe (l : List Char) (h : lbDigit l = true) : lbSafe l = true := by
  induction l with
  | nil => rfl
  | cons c r ih =>
    rw [lbDigit_cons] at h
    rw [lbSafe_cons]
    by_cases hc : c = '['
    · rw [if_pos hc] at h ⊢
      cases r with
      | nil => simp at h
      | cons d r2 =>
        dsimp only at h ⊢
        rw [Bool.and_eq_true] at h
        rw [isDigit_ne d '/' h.1 (by decide), isDigit_ne d 'c' h.1 (by decide),
          ih h.2]
        rfl
    · rw [if_neg hc] at h ⊢
      exact ih h

theorem lbDigit_fsSafe (l : List Char) (h : lbDigit l = true) : fsSafe l = true := by
  induction l with
  | nil => rfl
  | cons c r ih =>
    rw [lbDigit_cons] at h
    rw [fsSafe_cons]
    by_cases hc : c = '['
    · rw [if_pos hc] at h ⊢
      cases r with
      | nil => simp at h
      | cons d r2 =>
        dsimp only at h ⊢
        rw [Bool.and_eq_true] at h
        rw [isDigit_ne d 'f' h.1 (by decide), ih h.2]
        rfl
    · rw [if_neg hc] at h ⊢
      exact ih h

theorem lbDigit_fcSafe (l : List Char) (h : lbDigit l = true) : fcSafe l = true := by
  induction l with
  | nil => rfl
  | cons c r ih =>
    rw [lbDigit_cons] at h
    rw [fcSafe_cons]
    by_cases hc : c = '['
    · rw [if_pos hc] at h ⊢
      cases r with
      | nil => simp at h
      | cons d r2 =>
        dsimp only at h ⊢
        rw [Bool.and_eq_true] at h
        have hd : d ≠ '/' := by
          intro hd
          rw [hd] at h
          exact absurd h.1 (by decide)
        rw [if_neg hd, ih h.2]
    · rw [if_neg hc] at h ⊢
      exact ih h

theorem scanInner_cons (c : Char) (r : List Char) :
    scanInner (c :: r) =
      if sw colorClosePat (c :: r) then some ([], r.drop 7)
      else if sw colorOpenPat (c :: r) then none
      else (scanInner r).map (fun pr => (c :: pr.1, pr.2)) := rfl

theorem findColorMatch_cons (c : Char) (r : List Char) :
    findColorMatch (c :: r) =
      if sw colorOpenPat (c :: r) then
        match matchColorOpen ((c :: r).drop 7) with
        | some (hx, afterOpen) =>
          match scanInner afterOpen with
          | some (inner, post) => some ⟨[], hx, inner, post⟩
          | none => (findColorMatch r).map (fun m => ⟨c :: m.pre, m.hex, m.inner, m.post⟩)
        | none => (findColorMatch r).map (fun m => ⟨c :: m.pre, m.hex, m.inner, m.post⟩)
      else (findColorMatch r).map (fun m => ⟨c :: m.pre, m.hex, m.inner, m.post⟩) := rfl

theorem scanInner_safe_append (t : List Char) (ht : lbSafe t = true) :
    ∀ k, scanInner (t ++ k) = (scanInner k).map (fun pr => (t ++ pr.1, pr.2)) := by
  induction t with
  | nil =>
    intro k
    rw [List.nil_append]
    cases scanInner k with
    | none => rfl
    | some pr => simp
  | cons c r ih =>
    intro k
    rw [lbSafe_cons] at ht
    by_cases hc : c = '['
    · rw [if_pos hc] at ht
      subst hc
      cases r with
      | nil => simp at ht
      | cons d r2 =>
        dsimp only at ht
        rw [Bool.and_eq_true] at ht
        obtain ⟨hd, hr⟩ := ht
        have hd1 : d ≠ '/' := by intro h; subst h; simp at hd
        have hd2 : d ≠ 'c' := by intro h; subst h; simp at hd
        rw [List.cons_append, List.cons_append, scanInner_cons]
        have hb1 : ¬ sw colorClosePat ('[' :: d :: (r2 ++ k)) = true := by
          rw [colorClosePat_eq, sw_second_false '[' '/' '[' d _ _ hd1]
          exact Bool.false_ne_true
        have hb2 : ¬ sw colorOpenPat ('[' :: d :: (r2 ++ k)) = true := by
          rw [colorOpenPat_eq, sw_second_false '[' 'c' '[' d _ _ hd2]
          exact Bool.false_ne_true
        rw [if_neg hb1, if_neg hb2]
        have hih := ih hr k
        rw [List.cons_append] at hih
        rw [hih]
        cases scanInner k with
        | none => rfl
        | some pr => simp
    · rw [if_neg hc] at ht
      rw [List.cons_append, scanInner_cons]
      have hb1 : ¬ sw colorClosePat (c :: (r ++ k)) = true := by
        rw [colorClosePat_eq, sw_head_false '[' c _ _ hc]
        exact Bool.false_ne_true
      have hb2 : ¬ sw colorOpenPat (c :: (r ++ k)) = true := by
        rw [colorOpenPat_eq, sw_head_false '[' c _ _ hc]
        exact Bool.false_ne_true
      rw [if_neg hb1, if_neg hb2, ih ht k]
      cases scanInner k with
      | none => rfl
      | some pr => simp

theorem scanInner_close (k : List Char) :
    scanInner (colorClosePat ++ k) = some ([], k) := by
  have hshape : colorClosePat ++ k = '[' :: '/' :: 'c' :: 'o' :: 'l' :: 'o' :: 'r' :: ']' :: k := by
    rw [show colorClosePat = ['[', '/', 'c', 'o', 'l', 'o', 'r', ']'] from by decide]
    rfl
  have hsw := sw_self_append colorClosePat k
  rw [hshape] at hsw
  rw [hshape, scanInner_cons, if_pos hsw]
  simp

theorem scanInner_open_none (l : List Char) (h : sw colorOpenPat l = true) :
    scanInner l = none := by
  have hdec := sw_sound _ _ h
  rw [show colorOpenPat.length = 7 from by decide] at hdec
  have hshape : l = '[' :: 'c' :: 'o' :: 'l' :: 'o' :: 'r' :: '=' :: l.drop 7 := by
    rw [hdec, show colorOpenPat = ['[', 'c', 'o', 'l', 'o', 'r', '='] from by decide]
    rfl
  rw [hshape] at h ⊢
  rw [scanInner_cons]
  have hb1 : ¬ sw colorClosePat ('[' :: 'c' :: 'o' :: 'l' :: 'o' :: 'r' :: '=' :: l.drop 7) = true := by
    rw [colorClosePat_eq, sw_second_false '[' '/' '[' 'c' _ _ (by decide)]
    exact Bool.false_ne_true
  rw [if_neg hb1, if_pos h]

theorem findColorMatch_safe_append (t : List Char) (ht : lbSafe t = true) :
    ∀ k, findColorMatch (t ++ k) =
      (findColorMatch k).map (fun m => ⟨t ++ m.pre, m.hex, m.inner, m.post⟩) := by
  induction t with
  | nil =>
    intro k
    rw [List.nil_append]
    cases findColorMatch k with
    | none => rfl
    | some m => simp
  | cons c r ih =>
    intro k
    rw [lbSafe_cons] at ht
    by_cases hc : c = '['
    · rw [if_pos hc] at ht
      subst hc
      cases r with
      | nil => simp at ht
      | cons d r2 =>
        dsimp only at ht
        rw [Bool.and_eq_true] at ht
        obtain ⟨hd, hr⟩ := ht
        have hd2 : d ≠ 'c' := by intro h; subst h; simp at hd
        rw [List.cons_append, List.cons_append, findColorMatch_cons]
        have hb2 : ¬ sw colorOpenPat ('[' :: d :: (r2 ++ k)) = true := by
          rw [colorOpenPat_eq, sw_second_false '[' 'c' '[' d _ _ hd2]
          exact Bool.false_ne_true
        rw [if_neg hb2]
        have hih := ih hr k
        rw [List.cons_append] at hih
        rw [hih]
        cases findColorMatch k with
        | none => rfl
        | some m => simp
    · rw [if_neg hc] at ht
      rw [List.cons_append, findColorMatch_cons]
      have hb2 : ¬ sw colorOpenPat (c :: (r ++ k)) = true := by
        rw [colorOpenPat_eq, sw_head_false '[' c _ _ hc]
        exact Bool.false_ne_true
      rw [if_neg hb2, ih ht k]
      cases findColorMatch k with
      | none => rfl
      | some m => simp

theorem findColorMatch_none_of_lbSafe (l : List Char) (h : lbSafe l = true) :
    findColorMatch l = none := by
  have := findColorMatch_safe_append l h []
  rw [List.append_nil] at this
  rw [this]
  rfl

theorem renderColors_of_lbSafe (l : List Char) (h : lbSafe l = true) :
    renderColors l = l := by
  rw [renderColors]
  exact resolveFuel_of_none l (findColorMatch_none_of_lbSafe l h) _

/-- `#` followed by exactly six hex digits — the shape `rgb2hex` produces
and the shape the generator embeds in `[color=...]` tags. -/
def isHex6 (h : List Char) : Bool :=
  match h with
  | [] => false
  | c :: d => c == '#' && (d.length == 6 && d.all isHexDigitC)

theorem matchColorOpen_hash (r : List Char) :
    matchColorOpen ('#' :: r) =
      if (r.take 8).length == 8 && (r.take 8).all isHexDigitC && sw [']'] (r.drop 8) then
        some ('#' :: r.take 8, (r.drop 8).drop 1)
      else if (r.take 7).length == 7 && (r.take 7).all isHexDigitC && sw [']'] (r.drop 7) then
        some ('#' :: r.take 7, (r.drop 7).drop 1)
      else if (r.take 6).length == 6 && (r.take 6).all isHexDigitC && sw [']'] (r.drop 6) then
        some ('#' :: r.take 6, (r.drop 6).drop 1)
      else none := rfl

theorem matchColorOpen_exact (d k : List Char) (hlen : d.length = 6)
    (hall : d.all isHexDigitC = true) :
    matchColorOpen (('#' :: d) ++ ']' :: k) = some ('#' :: d, k) := by
  rw [List.cons_append]
  have ht8 : (d ++ ']' :: k).take 8 = d ++ ']' :: k.take 1 := by
    rw [show (8 : ℕ) = d.length + 2 from by omega, List.take_append]
    rfl
  have ht7 : (d ++ ']' :: k).take 7 = d ++ [']'] := by
    rw [show (7 : ℕ) = d.length + 1 from by omega, List.take_append]
    rfl
  have ht6 : (d ++ ']' :: k).take 6 = d := by
    rw [← hlen]
    exact List.take_left d (']' :: k)
  have hd6 : (d ++ ']' :: k).drop 6 = ']' :: k := by
    rw [← hlen]
    exact List.drop_left d (']' :: k)
  have h8all : (d ++ ']' :: k.take 1).all isHexDigitC = false := by
    cases hx : (d ++ ']' :: k.take 1).all isHexDigitC with
    | false => rfl
    | true => exact absurd (List.all_eq_true.mp hx ']' (by simp)) (by decide)
  have h7all : (d ++ [']']).all isHexDigitC = false := by
    cases hx : (d ++ [']']).all isHexDigitC with
    | false => rfl
    | true => exact absurd (List.all_eq_true.mp hx ']' (by simp)) (by decide)
  rw [matchColorOpen_hash, ht8, ht7, ht6, hd6, h8all, h7all, hall, hlen]
  simp [sw]

theorem renderColors_step (l : List Char) (m : CMatch) (h : findColorMatch l = some m) :
    renderColors l =
      renderColors (m.pre ++ ansiOfHex m.hex ++ m.inner ++ ansiReset ++ m.post) := by
  have hs := step_decreases l m h
  rw [renderColors, renderColors, ← hs]
  rw [show countRB (m.pre ++ ansiOfHex m.hex ++ m.inner ++ ansiReset ++ m.post) + 2
      = (countRB (m.pre ++ ansiOfHex m.hex ++ m.inner ++ ansiReset ++ m.post) + 1) + 1
      from rfl]
  simp only [resolveFuel, h]
  exact (fuel_reaches (countRB _) _ le_rfl).2 1

/-- Nested colour markup: each level contributes an opening tag, text
before and text after the nested body; the innermost body is `core`. -/
def nestC : List (List Char × List Char × List Char) → List Char → List Char
  | [], core => core
  | (h, a, b) :: rest, core =>
    colorOpenPat ++ h ++ ']' :: (a ++ nestC rest core ++ colorClosePat ++ b)

/-- The fully resolved form of `nestC`: each level's tags replaced by the
matching ANSI opener/reset pair, in the same (stack) nesting order. -/
def ansiNest : List (List Char × List Char × List Char) → List Char → List Char
  | [], core => core
  | (h, a, b) :: rest, core => ansiOfHex h ++ a ++ ansiNest rest core ++ ansiReset ++ b

theorem nestC_cons (q : List Char × List Char × List Char)
    (rest : List (List Char × List Char × List Char)) (core : List Char) :
    nestC (q :: rest) core =
      colorOpenPat ++ q.1 ++ ']' :: (q.2.1 ++ nestC rest core ++ colorClosePat ++ q.2.2) := by
  obtain ⟨h, a, b⟩ := q
  rfl

theorem ansiNest_cons (q : List Char × List Char × List Char)
    (rest : List (List Char × List Char × List Char)) (core : List Char) :
    ansiNest (q :: rest) core =
      ansiOfHex q.1 ++ q.2.1 ++ ansiNest rest core ++ ansiReset ++ q.2.2 := by
  obtain ⟨h, a, b⟩ := q
  rfl

theorem nestC_append (xs ys : List (List Char × List Char × List Char)) (core : List Char) :
    nestC (xs ++ ys) core = nestC xs (nestC ys core) := by
  induction xs with
  | nil => rfl
  | cons q rest ih => rw [List.cons_append, nestC_cons, nestC_cons, ih]

theorem ansiNest_append (xs ys : List (List Char × List Char × List Char)) (core : List Char) :
    ansiNest (xs ++ ys) core = ansiNest xs (ansiNest ys core) := by
  induction xs with
  | nil => rfl
  | cons q rest ih => rw [List.cons_append, ansiNest_cons, ansiNest_cons, ih]

theorem isHex6_elim (h : List Char) (hh : isHex6 h = true) :
    ∃ d, h = '#' :: d ∧ d.length = 6 ∧ d.all isHexDigitC = true := by
  cases h with
  | nil => exact absurd hh (by decide)
  | cons c d =>
    rw [show isHex6 (c :: d) = (c == '#' && (d.length == 6 && d.all isHexDigitC)) from rfl] at hh
    simp only [Bool.and_eq_true, beq_iff_eq] at hh
    exact ⟨d, by rw [hh.1], hh.2.1, hh.2.2⟩

theorem no_lb_of_isHex6 (h : List Char) (hh : isHex6 h = true) : '[' ∉ h := by
  obtain ⟨d, rfl, _, hall⟩ := isHex6_elim h hh
  intro hmem
  rcases List.mem_cons.mp hmem with h1 | h1
  · exact absurd h1 (by decide)
  · exact absurd (List.all_eq_true.mp hall '[' h1) (by decide)

theorem no_lb_natStr (n : ℕ) : '[' ∉ natStr n := fun hmem =>
  absurd (natStrGo_digits (n + 1) n '[' hmem) (by decide)

theorem lbDigit_esc_lb (d : Char) (rest : List Char) (hd : d.isDigit = true)
    (h : lbDigit (d :: rest) = true) :
    lbDigit (escChar :: '[' :: d :: rest) = true := by
  rw [lbDigit_cons, if_neg (show escChar ≠ '[' from by decide), lbDigit_cons, if_pos rfl]
  dsimp only
  rw [hd, h]
  rfl

theorem lbDigit_ansiOfHex (hx : List Char) : lbDigit (ansiOfHex hx) = true := by
  simp only [ansiOfHex]
  rw [show "38;2;".toList = ['3', '8', ';', '2', ';'] from by decide]
  simp only [List.cons_append]
  apply lbDigit_esc_lb '3' _ (by decide)
  apply lbDigit_of_no_lb
  intro hmem
  have hdig : ∀ n : ℕ, ('[' ∈ natStr n) = False := fun n =>
    eq_false (fun h => absurd (natStrGo_digits (n + 1) n '[' h) (by decide))
  simp [hdig] at hmem

theorem lbDigit_ansiReset : lbDigit ansiReset = true := by decide

theorem lbSafe_ansiOfHex (hx : List Char) : lbSafe (ansiOfHex hx) = true :=
  lbDigit_lbSafe _ (lbDigit_ansiOfHex hx)

theorem lbSafe_ansiReset : lbSafe ansiReset = true := by decide

theorem findColorMatch_openTag (X : List Char) :
    findColorMatch (colorOpenPat ++ X) =
      match matchColorOpen X with
      | some (hx, afterOpen) =>
        match scanInner afterOpen with
        | some (inner, post) => some ⟨[], hx, inner, post⟩
        | none => (findColorMatch ('c' :: 'o' :: 'l' :: 'o' :: 'r' :: '=' :: X)).map
            (fun m => ⟨'[' :: m.pre, m.hex, m.inner, m.post⟩)
      | none => (findColorMatch ('c' :: 'o' :: 'l' :: 'o' :: 'r' :: '=' :: X)).map
          (fun m => ⟨'[' :: m.pre, m.hex, m.inner, m.post⟩) := by
  have hshape : colorOpenPat ++ X = '[' :: 'c' :: 'o' :: 'l' :: 'o' :: 'r' :: '=' :: X := by
    rw [show colorOpenPat = ['[', 'c', 'o', 'l', 'o', 'r', '='] from by decide]
    rfl
  have hsw := sw_self_append colorOpenPat X
  rw [hshape] at hsw ⊢
  rw [findColorMatch_cons, if_pos hsw]
  rfl

theorem findColorMatch_nest (ls : List (List Char × List Char × List Char))
    (p : List Char × List Char × List Char) :
    ∀ (core k : List Char),
      isHex6 p.1 = true ∧ lbSafe p.2.1 = true ∧ lbSafe p.2.2 = true →
      (∀ q ∈ ls, isHex6 q.1 = true ∧ lbSafe q.2.1 = true ∧ lbSafe q.2.2 = true) →
      lbSafe core = true →
      ∃ m : CMatch, findColorMatch (nestC (ls ++ [p]) core ++ k) = some m ∧
        m.pre ++ ansiOfHex m.hex ++ m.inner ++ ansiReset ++ m.post =
          nestC ls (ansiOfHex p.1 ++ p.2.1 ++ core ++ ansiReset ++ p.2.2) ++ k := by
  induction ls with
  | nil =>
    intro core k hp hls hcore
    obtain ⟨hph, hpa, hpb⟩ := hp
    obtain ⟨d, hd, hdlen, hdall⟩ := isHex6_elim p.1 hph
    rw [List.nil_append, nestC_cons,
      show nestC ([] : List (List Char × List Char × List Char)) core = core from rfl]
    simp only [List.append_assoc, List.cons_append]
    rw [findColorMatch_openTag, hd,
      matchColorOpen_exact d _ hdlen hdall]
    dsimp only
    have hsi : scanInner (p.2.1 ++ (core ++ (colorClosePat ++ (p.2.2 ++ k)))) =
        some (p.2.1 ++ core, p.2.2 ++ k) := by
      rw [scanInner_safe_append p.2.1 hpa, scanInner_safe_append core hcore,
        scanInner_close]
      simp
    rw [hsi]
    dsimp only
    refine ⟨_, rfl, ?_⟩
    dsimp only
    rw [show nestC ([] : List (List Char × List Char × List Char))
        (ansiOfHex ('#' :: d) ++ (p.2.1 ++ (core ++ (ansiReset ++ p.2.2)))) =
        ansiOfHex ('#' :: d) ++ (p.2.1 ++ (core ++ (ansiReset ++ p.2.2))) from rfl]
    simp [List.append_assoc]
  | cons q ls' ih =>
    intro core k hp hls hcore
    obtain ⟨hqh, hqa, hqb⟩ := hls q (List.mem_cons_self q ls')
    have hls' : ∀ x ∈ ls', isHex6 x.1 = true ∧ lbSafe x.2.1 = true ∧ lbSafe x.2.2 = true :=
      fun x hx => hls x (List.mem_cons_of_mem q hx)
    obtain ⟨d0, hd0, hd0len, hd0all⟩ := isHex6_elim q.1 hqh
    rw [List.cons_append, nestC_cons]
    simp only [List.append_assoc, List.cons_append]
    rw [findColorMatch_openTag, hd0,
      matchColorOpen_exact d0 _ hd0len hd0all]
    dsimp only
    have hopen : sw colorOpenPat
        (nestC (ls' ++ [p]) core ++ (colorClosePat ++ (q.2.2 ++ k))) = true := by
      cases hshape : ls' ++ [p] with
      | nil => exact absurd hshape (by simp)
      | cons x xs =>
        rw [nestC_cons]
        simp only [List.append_assoc, List.cons_append]
        exact sw_self_append colorOpenPat _
    have hsi : scanInner
        (q.2.1 ++ (nestC (ls' ++ [p]) core ++ (colorClosePat ++ (q.2.2 ++ k)))) = none := by
      rw [scanInner_safe_append q.2.1 hqa, scanInner_open_none _ hopen]
      rfl
    rw [hsi]
    dsimp only
    have hre : ('c' :: 'o' :: 'l' :: 'o' :: 'r' :: '=' :: ('#' :: d0 ++ ']' ::
        (q.2.1 ++ (nestC (ls' ++ [p]) core ++ (colorClosePat ++ (q.2.2 ++ k)))))) =
        ('c' :: 'o' :: 'l' :: 'o' :: 'r' :: '=' :: '#' :: (d0 ++ ']' :: q.2.1)) ++
          (nestC (ls' ++ [p]) core ++ (colorClosePat ++ (q.2.2 ++ k))) := by
      simp
    have hts : lbSafe ('c' :: 'o' :: 'l' :: 'o' :: 'r' :: '=' :: '#' ::
        (d0 ++ ']' :: q.2.1)) = true := by
      rw [show ('c' :: 'o' :: 'l' :: 'o' :: 'r' :: '=' :: '#' :: (d0 ++ ']' :: q.2.1)) =
        (['c', 'o', 'l', 'o', 'r', '=', '#'] ++ d0 ++ [']']) ++ q.2.1 from by simp]
      apply lbSafe_append _ _ _ hqa
      apply lbSafe_of_no_lb
      intro hmem
      simp only [List.mem_append, List.mem_cons, List.mem_singleton] at hmem
      rcases hmem with (h | h) | h
      · exact absurd h (by decide)
      · exact absurd (List.all_eq_true.mp hd0all '[' h) (by decide)
      · exact absurd h (by decide)
    rw [hre, findColorMatch_safe_append _ hts]
    obtain ⟨m', hm', hrep'⟩ := ih core (colorClosePat ++ (q.2.2 ++ k)) ⟨hp.1, hp.2.1, hp.2.2⟩
      hls' hcore
    rw [hm']
    refine ⟨_, rfl, ?_⟩
    dsimp only
    simp only [List.append_assoc] at hrep' ⊢
    simp only [List.cons_append]
    rw [nestC_cons, hd0]
    rw [show colorOpenPat = ['[', 'c', 'o', 'l', 'o', 'r', '='] from by decide]
    simp [List.append_assoc, hrep']

theorem lbSafe_ansi_wrap (h a b core : List Char) (ha : lbSafe a = true)
    (hb : lbSafe b = true) (hcore : lbSafe core = true) :
    lbSafe (ansiOfHex h ++ a ++ core ++ ansiReset ++ b) = true := by
  have h1 : lbSafe (ansiReset ++ b) = true :=
    lbSafe_append ansiReset b lbSafe_ansiReset hb
  have h2 : lbSafe (core ++ (ansiReset ++ b)) = true :=
    lbSafe_append core (ansiReset ++ b) hcore h1
  have h3 : lbSafe (a ++ (core ++ (ansiReset ++ b))) = true :=
    lbSafe_append a (core ++ (ansiReset ++ b)) ha h2
  have h4 : lbSafe (ansiOfHex h ++ (a ++ (core ++ (ansiReset ++ b)))) = true :=
    lbSafe_append (ansiOfHex h) (a ++ (core ++ (ansiReset ++ b)))
      (lbSafe_ansiOfHex h) h3
  simpa [List.append_assoc] using h4

theorem renderColors_nest (levels : List (List Char × List Char × List Char)) :
    ∀ core : List Char,
      (∀ q ∈ levels, isHex6 q.1 = true ∧ lbSafe q.2.1 = true ∧ lbSafe q.2.2 = true) →
      lbSafe core = true →
      renderColors (nestC levels core) = ansiNest levels core := by
  induction levels using List.reverseRecOn with
  | nil => intro core _ hcore; exact renderColors_of_lbSafe core hcore
  | append_singleton ls p ih =>
    intro core hok hcore
    have hp : isHex6 p.1 = true ∧ lbSafe p.2.1 = true ∧ lbSafe p.2.2 = true :=
      hok p (by simp)
    have hls : ∀ q ∈ ls, isHex6 q.1 = true ∧ lbSafe q.2.1 = true ∧ lbSafe q.2.2 = true :=
      fun q hq => hok q (by simp [hq])
    obtain ⟨m, hm, hrep⟩ := findColorMatch_nest ls p core [] hp hls hcore
    rw [List.append_nil] at hm hrep
    have hcore' : lbSafe (ansiOfHex p.1 ++ p.2.1 ++ core ++ ansiReset ++ p.2.2) = true :=
      lbSafe_ansi_wrap p.1 p.2.1 p.2.2 core hp.2.1 hp.2.2 hcore
    rw [renderColors_step _ m hm, hrep, ih _ hls hcore', ansiNest_append, ansiNest_cons]
    rfl

/-- A flat sequence of sibling colour spans: each entry is (hex, inner
text, following plain text). -/
def flatW : List (List Char × List Char × List Char) → List Char
  | [] => []
  | (h, t, aft) :: rest =>
    colorOpenPat ++ h ++ ']' :: (t ++ colorClosePat ++ aft ++ flatW rest)

/-- The fully resolved form of `flatW`: spans replaced left to right by
ANSI opener/reset pairs. -/
def ansiW : List (List Char × List Char × List Char) → List Char
  | [] => []
  | (h, t, aft) :: rest => ansiOfHex h ++ t ++ ansiReset ++ aft ++ ansiW rest

theorem flatW_cons (q : List Char × List Char × List Char)
    (rest : List (List Char × List Char × List Char)) :
    flatW (q :: rest) =
      colorOpenPat ++ q.1 ++ ']' :: (q.2.1 ++ colorClosePat ++ q.2.2 ++ flatW rest) := by
  obtain ⟨h, t, aft⟩ := q
  rfl

theorem ansiW_cons (q : List Char × List Char × List Char)
    (rest : List (List Char × List Char × List Char)) :
    ansiW (q :: rest) = ansiOfHex q.1 ++ q.2.1 ++ ansiReset ++ q.2.2 ++ ansiW rest := by
  obtain ⟨h, t, aft⟩ := q
  rfl

theorem renderColors_flat (segs : List (List Char × List Char × List Char)) :
    ∀ lead : List Char,
      (∀ q ∈ segs, isHex6 q.1 = true ∧ lbSafe q.2.1 = true ∧ lbSafe q.2.2 = true) →
      lbSafe lead = true →
      renderColors (lead ++ flatW segs) = lead ++ ansiW segs := by
  induction segs with
  | nil =>
    intro lead _ hlead
    rw [show flatW [] = [] from rfl, show ansiW [] = [] from rfl, List.append_nil]
    exact renderColors_of_lbSafe lead hlead
  | cons q rest ih =>
    intro lead hok hlead
    have hq := hok q (List.mem_cons_self q rest)
    have hrest : ∀ x ∈ rest, isHex6 x.1 = true ∧ lbSafe x.2.1 = true ∧ lbSafe x.2.2 = true :=
      fun x hx => hok x (List.mem_cons_of_mem q hx)
    obtain ⟨d, hd, hdl, hda⟩ := isHex6_elim q.1 hq.1
    have hflat : flatW (q :: rest) =
        colorOpenPat ++ (q.1 ++ (']' :: (q.2.1 ++ (colorClosePat ++ (q.2.2 ++ flatW rest))))) := by
      rw [flatW_cons]
      simp [List.append_assoc]
    have hsi : scanInner (q.2.1 ++ (colorClosePat ++ (q.2.2 ++ flatW rest))) =
        some (q.2.1, q.2.2 ++ flatW rest) := by
      rw [scanInner_safe_append q.2.1 hq.2.1, scanInner_close]
      simp
    have hin : findColorMatch (flatW (q :: rest)) =
        some ⟨[], '#' :: d, q.2.1, q.2.2 ++ flatW rest⟩ := by
      rw [hflat, findColorMatch_openTag, hd, matchColorOpen_exact d _ hdl hda]
      dsimp only
      rw [hsi]
    have hm : findColorMatch (lead ++ flatW (q :: rest)) =
        some ⟨lead ++ [], '#' :: d, q.2.1, q.2.2 ++ flatW rest⟩ := by
      rw [findColorMatch_safe_append lead hlead, hin]
      rfl
    rw [renderColors_step _ _ hm]
    dsimp only
    have hre : (lead ++ []) ++ ansiOfHex ('#' :: d) ++ q.2.1 ++ ansiReset ++
        (q.2.2 ++ flatW rest) =
        (lead ++ ansiOfHex ('#' :: d) ++ q.2.1 ++ ansiReset ++ q.2.2) ++ flatW rest := by
      simp [List.append_assoc]
    rw [hre]
    have hlead' : lbSafe (lead ++ ansiOfHex ('#' :: d) ++ q.2.1 ++ ansiReset ++ q.2.2)
        = true := by
      have hstep : lbSafe (lead ++ (ansiOfHex ('#' :: d) ++ (q.2.1 ++ (ansiReset ++ q.2.2))))
          = true :=
        lbSafe_append _ _ hlead
          (lbSafe_append _ _ (lbSafe_ansiOfHex ('#' :: d))
            (lbSafe_append _ _ hq.2.1
              (lbSafe_append _ _ lbSafe_ansiReset hq.2.2)))
      simpa [List.append_assoc] using hstep
    rw [ih _ hrest hlead', ansiW_cons, hd]
    simp [List.append_assoc]

/-- C5: the colour-resolution loop resolves nested colour tags
innermost-first — `nestC levels core` renders to `ansiNest levels core`,
the properly nested stack of ANSI opener/reset pairs, for any nesting
depth — and sibling spans left to right (`flatW`/`ansiW`); in particular
the triple-nested example renders to three nested ANSI spans closing in
reverse order of opening.  Side conditions: each tag's hex group is `#`
plus six hex digits and the plain-text pieces contain no `[` that could
start a colour tag (`lbSafe`). -/
theorem C5_nested_innermost :
    (∀ (levels : List (List Char × List Char × List Char)) (core : List Char),
      (∀ q ∈ levels, isHex6 q.1 = true ∧ lbSafe q.2.1 = true ∧ lbSafe q.2.2 = true) →
      lbSafe core = true →
      renderColors (nestC levels core) = ansiNest levels core) ∧
    (∀ (segs : List (List Char × List Char × List Char)) (lead : List Char),
      (∀ q ∈ segs, isHex6 q.1 = true ∧ lbSafe q.2.1 = true ∧ lbSafe q.2.2 = true) →
      lbSafe lead = true →
      renderColors (lead ++ flatW segs) = lead ++ ansiW segs) ∧
    renderMarkup
        ("[color=#FF0000]R [color=#00FF00]G [color=#0000FF]B[/color] G[/color] R[/color]".toList) =
      "\x1b[38;2;255;0;0mR \x1b[38;2;0;255;0mG \x1b[38;2;0;0;255mB\x1b[0m G\x1b[0m R\x1b[0m".toList :=
  ⟨fun levels core h1 h2 => renderColors_nest levels core h1 h2,
   fun segs lead h1 h2 => renderColors_flat segs lead h1 h2,
   by decide⟩

theorem C5_witness :
    (∀ q ∈ ([("#FF0000".toList, "R ".toList, "".toList),
             ("#00FF00".toList, "G ".toList, " R".toList),
             ("#0000FF".toList, "B".toList, " G".toList)] :
          List (List Char × List Char × List Char)),
        isHex6 q.1 = true ∧ lbSafe q.2.1 = true ∧ lbSafe q.2.2 = true) ∧
    lbSafe ("".toList) = true ∧
    renderColors (nestC [("#FF0000".toList, "R ".toList, "".toList),
             ("#00FF00".toList, "G ".toList, " R".toList),
             ("#0000FF".toList, "B".toList, " G".toList)] ("".toList)) =
      ansiNest [("#FF0000".toList, "R ".toList, "".toList),
             ("#00FF00".toList, "G ".toList, " R".toList),
             ("#0000FF".toList, "B".toList, " G".toList)] ("".toList) :=
  ⟨by decide, by decide, C5_nested_innermost.1 _ _ (by decide) (by decide)⟩

theorem stripFontOpensGo_nil (f : ℕ) : stripFontOpensGo f [] = [] := by
  cases f <;> rfl

theorem removeFontCloseGo_nil (f : ℕ) : removeFontCloseGo f [] = [] := by
  cases f <;> rfl

theorem stripFontOpensGo_succ (f : ℕ) (c : Char) (r : List Char) :
    stripFontOpensGo (f + 1) (c :: r) =
      if sw fontOpenPat (c :: r) then
        match splitAtRB (r.drop 5) with
        | some (content, rest) =>
          if content.isEmpty then c :: stripFontOpensGo f r
          else stripFontOpensGo f rest
        | none => c :: stripFontOpensGo f r
      else c :: stripFontOpensGo f r := rfl

theorem removeFontCloseGo_succ (f : ℕ) (c : Char) (r : List Char) :
    removeFontCloseGo (f + 1) (c :: r) =
      if sw fontClosePat (c :: r) then removeFontCloseGo f (r.drop 6)
      else c :: removeFontCloseGo f r := rfl

theorem stripFontOpensGo_congr (f1 : ℕ) : ∀ (f2 : ℕ) (l : List Char),
    l.length ≤ f1 → l.length ≤ f2 → stripFontOpensGo f1 l = stripFontOpensGo f2 l := by
  induction f1 with
  | zero =>
    intro f2 l h1 _
    have hl : l = [] := List.length_eq_zero.mp (by omega)
    subst hl
    exact (stripFontOpensGo_nil f2).symm
  | succ f ih =>
    intro f2 l h1 h2
    cases f2 with
    | zero =>
      have hl : l = [] := List.length_eq_zero.mp (by omega)
      subst hl
      exact stripFontOpensGo_nil (f + 1)
    | succ g =>
      cases l with
      | nil => rw [stripFontOpensGo_nil, stripFontOpensGo_nil]
      | cons c r =>
        rw [stripFontOpensGo_succ, stripFontOpensGo_succ]
        rw [List.length_cons] at h1 h2
        by_cases hsw : sw fontOpenPat (c :: r) = true
        · rw [if_pos hsw, if_pos hsw]
          cases hsp : splitAtRB (r.drop 5) with
          | none =>
            dsimp only
            rw [ih g r (by omega) (by omega)]
          | some pr =>
            obtain ⟨content, rest⟩ := pr
            dsimp only
            have hlt : rest.length < (r.drop 5).length :=
              splitAtRB_shrink (r.drop 5) content rest hsp
            have hdl : (r.drop 5).length ≤ r.length := by
              rw [List.length_drop]; omega
            by_cases hce : content.isEmpty
            · rw [if_pos hce, if_pos hce, ih g r (by omega) (by omega)]
            · rw [if_neg hce, if_neg hce, ih g rest (by omega) (by omega)]
        · rw [if_neg hsw, if_neg hsw, ih g r (by omega) (by omega)]

theorem removeFontCloseGo_congr (f1 : ℕ) : ∀ (f2 : ℕ) (l : List Char),
    l.length ≤ f1 → l.length ≤ f2 → removeFontCloseGo f1 l = removeFontCloseGo f2 l := by
  induction f1 with
  | zero =>
    intro f2 l h1 _
    have hl : l = [] := List.length_eq_zero.mp (by omega)
    subst hl
    exact (removeFontCloseGo_nil f2).symm
  | succ f ih =>
    intro f2 l h1 h2
    cases f2 with
    | zero =>
      have hl : l = [] := List.length_eq_zero.mp (by omega)
      subst hl
      exact removeFontCloseGo_nil (f + 1)
    | succ g =>
      cases l with
      | nil => rw [removeFontCloseGo_nil, removeFontCloseGo_nil]
      | cons c r =>
        rw [removeFontCloseGo_succ, removeFontCloseGo_succ]
        rw [List.length_cons] at h1 h2
        by_cases hsw : sw fontClosePat (c :: r) = true
        · rw [if_pos hsw, if_pos hsw]
          have hdl : (r.drop 6).length ≤ r.length := by
            rw [List.length_drop]; omega
          rw [ih g (r.drop 6) (by omega) (by omega)]
        · rw [if_neg hsw, if_neg hsw, ih g r (by omega) (by omega)]

theorem stripFontOpens_cons_skip (c : Char) (l : List Char)
    (h : sw fontOpenPat (c :: l) = false) :
    stripFontOpens (c :: l) = c :: stripFontOpens l := by
  rw [stripFontOpens, stripFontOpens,
    show (c :: l).length = l.length + 1 from rfl, stripFontOpensGo_succ,
    if_neg (by rw [h]; exact Bool.false_ne_true)]

theorem removeFontClose_cons_skip (c : Char) (l : List Char)
    (h : sw fontClosePat (c :: l) = false) :
    removeFontClose (c :: l) = c :: removeFontClose l := by
  rw [removeFontClose, removeFontClose,
    show (c :: l).length = l.length + 1 from rfl, removeFontCloseGo_succ,
    if_neg (by rw [h]; exact Bool.false_ne_true)]

theorem splitAtRB_cons (c : Char) (l : List Char) :
    splitAtRB (c :: l) =
      if c = ']' then some ([], l)
      else (splitAtRB l).map (fun pr => (c :: pr.1, pr.2)) := rfl

theorem splitAtRB_exact (a b : List Char) (h : ']' ∉ a) :
    splitAtRB (a ++ ']' :: b) = some (a, b) := by
  induction a with
  | nil => rw [List.nil_append, splitAtRB_cons, if_pos rfl]
  | cons c r ih =>
    have hc : c ≠ ']' := fun hc => h (hc ▸ List.mem_cons_self c r)
    rw [List.cons_append, splitAtRB_cons, if_neg hc,
      ih (fun hm => h (List.mem_cons_of_mem c hm))]
    rfl

theorem stripFontOpens_append (a : List Char) (ha : fsSafe a = true) :
    ∀ b, stripFontOpens (a ++ b) = a ++ stripFontOpens b := by
  induction a with
  | nil => intro b; rw [List.nil_append, List.nil_append]
  | cons c r ih =>
    intro b
    rw [fsSafe_cons] at ha
    by_cases hc : c = '['
    · rw [if_pos hc] at ha
      subst hc
      cases r with
      | nil => simp at ha
      | cons d r2 =>
        dsimp only at ha
        rw [Bool.and_eq_true] at ha
        have hd : d ≠ 'f' := by
          intro h; subst h; simp at ha
        rw [List.cons_append, List.cons_append, stripFontOpens_cons_skip _ _
          (by rw [fontOpenPat_eq, sw_second_false '[' 'f' '[' d _ _ hd])]
        have hih := ih ha.2 b
        rw [List.cons_append] at hih
        rw [hih]
        simp
    · rw [if_neg hc] at ha
      rw [List.cons_append, stripFontOpens_cons_skip _ _
        (by rw [fontOpenPat_eq, sw_head_false '[' c _ _ hc]), ih ha b,
        List.cons_append]

theorem removeFontClose_append (a : List Char) (ha : fcSafe a = true) :
    ∀ b, removeFontClose (a ++ b) = a ++ removeFontClose b := by
  induction a with
  | nil => intro b; rw [List.nil_append, List.nil_append]
  | cons c r ih =>
    intro b
    rw [fcSafe_cons] at ha
    by_cases hc : c = '['
    · rw [if_pos hc] at ha
      subst hc
      cases r with
      | nil => simp at ha
      | cons d r2 =>
        dsimp only at ha
        by_cases hd : d = '/'
        · rw [if_pos hd] at ha
          subst hd
          cases r2 with
          | nil => simp at ha
          | cons e r3 =>
            dsimp only at ha
            rw [Bool.and_eq_true] at ha
            have he : e ≠ 'f' := by
              intro h; subst h; simp at ha
            rw [List.cons_append, List.cons_append, List.cons_append,
              removeFontClose_cons_skip _ _
                (by rw [fontClosePat_eq, sw_third_false '[' '/' 'f' '[' '/' e _ _ he])]
            have hih := ih ha.2 b
            rw [List.cons_append, List.cons_append] at hih
            rw [hih]
            simp
        · rw [if_neg hd] at ha
          rw [List.cons_append, List.cons_append,
            removeFontClose_cons_skip _ _
              (by rw [fontClosePat_eq, sw_second_false '[' '/' '[' d _ _ hd])]
          have hih := ih ha b
          rw [List.cons_append] at hih
          rw [hih]
          simp
    · rw [if_neg hc] at ha
      rw [List.cons_append, removeFontClose_cons_skip _ _
        (by rw [fontClosePat_eq, sw_head_false '[' c _ _ hc]), ih ha b,
        List.cons_append]

theorem stripFontOpens_of_fsSafe (l : List Char) (h : fsSafe l = true) :
    stripFontOpens l = l := by
  have hthis := stripFontOpens_append l h []
  rw [show stripFontOpens ([] : List Char) = [] from rfl] at hthis
  simpa using hthis

theorem removeFontClose_of_fcSafe (l : List Char) (h : fcSafe l = true) :
    removeFontClose l = l := by
  have hthis := removeFontClose_append l h []
  rw [show removeFontClose ([] : List Char) = [] from rfl] at hthis
  simpa using hthis

theorem stripFontOpens_techTag (b : List Char) :
    stripFontOpens (fontOpenTechTag ++ b) = stripFontOpens b := by
  have hshape : fontOpenTechTag ++ b =
      '[' :: ("font=technology-slot-level-font]".toList ++ b) := by
    rw [show fontOpenTechTag = '[' :: "font=technology-slot-level-font]".toList
      from by decide, List.cons_append]
  rw [stripFontOpens, hshape,
    show ('[' :: ("font=technology-slot-level-font]".toList ++ b)).length =
      ("font=technology-slot-level-font]".toList ++ b).length + 1 from rfl,
    stripFontOpensGo_succ]
  have hsw : sw fontOpenPat ('[' :: ("font=technology-slot-level-font]".toList ++ b))
      = true := by
    have h0 := sw_self_append fontOpenPat ("technology-slot-level-font]".toList ++ b)
    have heq : fontOpenPat ++ ("technology-slot-level-font]".toList ++ b) =
        '[' :: ("font=technology-slot-level-font]".toList ++ b) := by
      rw [← List.append_assoc,
        show fontOpenPat ++ "technology-slot-level-font]".toList =
          '[' :: "font=technology-slot-level-font]".toList from by decide,
        List.cons_append]
    rw [heq] at h0
    exact h0
  rw [if_pos hsw]
  have hdrop : ("font=technology-slot-level-font]".toList ++ b).drop 5 =
      "technology-slot-level-font]".toList ++ b := by
    rw [show "font=technology-slot-level-font]".toList =
      "font=".toList ++ "technology-slot-level-font]".toList from by decide,
      List.append_assoc,
      show (5 : ℕ) = ("font=".toList).length from by decide]
    exact List.drop_left _ _
  rw [hdrop]
  have hsplit : splitAtRB ("technology-slot-level-font]".toList ++ b) =
      some ("technology-slot-level-font".toList, b) := by
    have hsh : "technology-slot-level-font]".toList ++ b =
        "technology-slot-level-font".toList ++ ']' :: b := by
      rw [show "technology-slot-level-font]".toList =
        "technology-slot-level-font".toList ++ [']'] from by decide,
        List.append_assoc]
      rfl
    rw [hsh]
    exact splitAtRB_exact _ _ (by decide)
  rw [hsplit]
  dsimp only
  rw [if_neg (show ¬ ("technology-slot-level-font".toList.isEmpty = true) from by decide)]
  rw [stripFontOpens]
  apply stripFontOpensGo_congr
  · rw [List.length_append]
    omega
  · exact le_rfl

theorem removeFontClose_tag (b : List Char) :
    removeFontClose (fontClosePat ++ b) = removeFontClose b := by
  have hshape : fontClosePat ++ b = '[' :: ("/font]".toList ++ b) := by
    rw [show fontClosePat = '[' :: "/font]".toList from by decide, List.cons_append]
  rw [removeFontClose, hshape,
    show ('[' :: ("/font]".toList ++ b)).length = ("/font]".toList ++ b).length + 1
      from rfl,
    removeFontCloseGo_succ]
  have hsw : sw fontClosePat ('[' :: ("/font]".toList ++ b)) = true := by
    have h0 := sw_self_append fontClosePat b
    have heq : fontClosePat ++ b = '[' :: ("/font]".toList ++ b) := hshape
    rw [heq] at h0
    exact h0
  rw [if_pos hsw]
  have hdrop : ("/font]".toList ++ b).drop 6 = b := by
    rw [show (6 : ℕ) = ("/font]".toList).length from by decide]
    exact List.drop_left _ _
  rw [hdrop, removeFontClose]
  apply removeFontCloseGo_congr
  · rw [List.length_append]
    omega
  · exact le_rfl

theorem hasOcc_false_of_lbDigit (p : Char) (ps : List Char) (hp : p.isDigit = false) :
    ∀ l : List Char, lbDigit l = true → hasOcc ('[' :: p :: ps) l = false := by
  intro l
  induction l with
  | nil => intro _; rfl
  | cons c r ih =>
    intro h
    rw [lbDigit_cons] at h
    show (sw ('[' :: p :: ps) (c :: r) || hasOcc ('[' :: p :: ps) r) = false
    by_cases hc : c = '['
    · rw [if_pos hc] at h
      subst hc
      cases r with
      | nil => simp at h
      | cons d r2 =>
        dsimp only at h
        rw [Bool.and_eq_true] at h
        have hdp : d ≠ p := by
          intro hdp
          subst hdp
          exact absurd h.1 (by rw [hp]; exact Bool.false_ne_true)
        rw [sw_second_false '[' p '[' d ps r2 hdp, ih h.2]
        rfl
    · rw [if_neg hc] at h
      rw [sw_head_false '[' c _ _ hc, ih h]
      rfl

theorem renderMarkup_of_lbDigit (l : List Char) (h : lbDigit l = true) :
    renderMarkup l = l := by
  rw [renderMarkup, stripFontOpens_of_fsSafe l (lbDigit_fsSafe l h),
    removeFontClose_of_fcSafe l (lbDigit_fcSafe l h),
    renderColors_of_lbSafe l (lbDigit_lbSafe l h)]

theorem no_lb_bar0 (cfg : PBarConfigM) (s : ℤ) : '[' ∉ bar0For cfg s := by
  intro hmem
  rw [bar0For] at hmem
  split at hmem
  · exact List.not_mem_nil _ hmem
  · rcases List.mem_append.mp hmem with h | h
    · exact absurd (List.eq_of_mem_replicate h) (by decide)
    · rw [List.mem_singleton] at h
      by_cases hi : (s.fmod divs).toNat < substeps.length
      · rw [List.getD_eq_getElem _ _ hi] at h
        have := List.getElem_mem hi
        rw [← h] at this
        exact absurd this (by decide)
      · rw [List.getD_eq_default _ _ (by omega)] at h
        exact absurd h (by decide)

theorem no_lb_end0 (cfg : PBarConfigM) (s : ℤ) : '[' ∉ end0For cfg s := by
  intro hmem
  rw [end0For] at hmem
  rcases List.mem_append.mp hmem with h | h
  · exact absurd (List.eq_of_mem_replicate h) (by decide)
  · exact absurd (List.eq_of_mem_replicate h) (by decide)

theorem no_lb_label (cfg : PBarConfigM) (s : ℤ) : '[' ∉ labelFor cfg s := by
  intro hmem
  rw [labelFor] at hmem
  rcases List.mem_append.mp hmem with h | h
  · rcases fmt1f_chars _ '[' h with h1 | h1 | h1
    · exact absurd h1 (by decide)
    · exact absurd h1 (by decide)
    · exact absurd h1 (by decide)
  · rw [List.mem_singleton] at h
    exact absurd h (by decide)

theorem fsSafe_wrap (hx t : List Char) (hhx : isHex6 hx = true) (ht : '[' ∉ t) :
    fsSafe (colorOpenPat ++ hx ++ ']' :: t ++ colorClosePat) = true := by
  refine fsSafe_append _ _ (fsSafe_append _ _ (fsSafe_append _ _ ?_ ?_) ?_) ?_
  · decide
  · exact fsSafe_of_no_lb _ (no_lb_of_isHex6 hx hhx)
  · exact fsSafe_of_no_lb _ (by
      intro hm
      rcases List.mem_cons.mp hm with h | h
      · exact absurd h (by decide)
      · exact ht h)
  · decide

theorem fcSafe_wrap (hx t : List Char) (hhx : isHex6 hx = true) (ht : '[' ∉ t) :
    fcSafe (colorOpenPat ++ hx ++ ']' :: t ++ colorClosePat) = true := by
  refine fcSafe_append _ _ (fcSafe_append _ _ (fcSafe_append _ _ ?_ ?_) ?_) ?_
  · decide
  · exact fcSafe_of_no_lb _ (no_lb_of_isHex6 hx hhx)
  · exact fcSafe_of_no_lb _ (by
      intro hm
      rcases List.mem_cons.mp hm with h | h
      · exact absurd h (by decide)
      · exact ht h)
  · decide

theorem fsSafe_barStr (cfg : PBarConfigM) (s : ℤ)
    (hcm : ∀ f, cfg.cmapHex = some f → ∀ q : ℚ, isHex6 (f q) = true) :
    fsSafe (barStrFor cfg s) = true := by
  rw [barStrFor]
  cases hc : cfg.cmapHex with
  | none => exact fsSafe_of_no_lb _ (no_lb_bar0 cfg s)
  | some f =>
    dsimp only
    split_ifs with hie
    · exact fsSafe_of_no_lb _ (no_lb_bar0 cfg s)
    · exact fsSafe_wrap _ _ (hcm f hc _) (no_lb_bar0 cfg s)

theorem fsSafe_endStr (cfg : PBarConfigM) (s : ℤ)
    (hcm : ∀ f, cfg.cmapHex = some f → ∀ q : ℚ, isHex6 (f q) = true) :
    fsSafe (endStrFor cfg s) = true := by
  rw [endStrFor]
  cases hc : cfg.cmapHex with
  | none => exact fsSafe_of_no_lb _ (no_lb_end0 cfg s)
  | some f =>
    dsimp only
    split_ifs with hie
    · exact fsSafe_of_no_lb _ (no_lb_end0 cfg s)
    · exact fsSafe_wrap _ _ (hcm f hc _) (no_lb_end0 cfg s)

theorem fcSafe_barStr (cfg : PBarConfigM) (s : ℤ)
    (hcm : ∀ f, cfg.cmapHex = some f → ∀ q : ℚ, isHex6 (f q) = true) :
    fcSafe (barStrFor cfg s) = true := by
  rw [barStrFor]
  cases hc : cfg.cmapHex with
  | none => exact fcSafe_of_no_lb _ (no_lb_bar0 cfg s)
  | some f =>
    dsimp only
    split_ifs with hie
    · exact fcSafe_of_no_lb _ (no_lb_bar0 cfg s)
    · exact fcSafe_wrap _ _ (hcm f hc _) (no_lb_bar0 cfg s)

theorem fcSafe_endStr (cfg : PBarConfigM) (s : ℤ)
    (hcm : ∀ f, cfg.cmapHex = some f → ∀ q : ℚ, isHex6 (f q) = true) :
    fcSafe (endStrFor cfg s) = true := by
  rw [endStrFor]
  cases hc : cfg.cmapHex with
  | none => exact fcSafe_of_no_lb _ (no_lb_end0 cfg s)
  | some f =>
    dsimp only
    split_ifs with hie
    · exact fcSafe_of_no_lb _ (no_lb_end0 cfg s)
    · exact fcSafe_wrap _ _ (hcm f hc _) (no_lb_end0 cfg s)

theorem no_lb_tail2 (cfg : PBarConfigM) (s : ℤ) :
    '[' ∉ "  ".toList ++ labelFor cfg s := by
  intro hm
  rcases List.mem_append.mp hm with h | h
  · exact absurd h (by decide)
  · exact no_lb_label cfg s h

theorem fontPasses_pureCond (cfg : PBarConfigM) (s : ℤ)
    (hpfx : '[' ∉ cfg.prefixStr)
    (hcm : ∀ f, cfg.cmapHex = some f → ∀ q : ℚ, isHex6 (f q) = true) :
    removeFontClose (stripFontOpens ((pureCondArgs cfg s).1.text)) =
      cfg.prefixStr ++ (barStrFor cfg s ++ (endStrFor cfg s ++
        ("  ".toList ++ labelFor cfg s))) := by
  rw [pureCond_text_eq]
  have hassoc : cfg.prefixStr ++ fontOpenTechTag ++ barStrFor cfg s ++ endStrFor cfg s
      ++ fontClosePat ++ "  ".toList ++ labelFor cfg s
      = cfg.prefixStr ++ (fontOpenTechTag ++ (barStrFor cfg s ++ (endStrFor cfg s
        ++ (fontClosePat ++ ("  ".toList ++ labelFor cfg s))))) := by
    simp [List.append_assoc]
  rw [hassoc, stripFontOpens_append _ (fsSafe_of_no_lb _ hpfx), stripFontOpens_techTag,
    stripFontOpens_of_fsSafe _
      (fsSafe_append _ _ (fsSafe_barStr cfg s hcm)
        (fsSafe_append _ _ (fsSafe_endStr cfg s hcm)
          (fsSafe_append _ _ (by decide) (fsSafe_of_no_lb _ (no_lb_tail2 cfg s)))))]
  rw [removeFontClose_append _ (fcSafe_of_no_lb _ hpfx),
    removeFontClose_append _ (fcSafe_barStr cfg s hcm),
    removeFontClose_append _ (fcSafe_endStr cfg s hcm),
    removeFontClose_tag,
    removeFontClose_of_fcSafe _ (fcSafe_of_no_lb _ (no_lb_tail2 cfg s))]

theorem lbDigit_ansiW (segs : List (List Char × List Char × List Char))
    (h : ∀ q ∈ segs, '[' ∉ q.2.1 ∧ '[' ∉ q.2.2) : lbDigit (ansiW segs) = true := by
  induction segs with
  | nil => rfl
  | cons q rest ih =>
    rw [ansiW_cons]
    have hq := h q (List.mem_cons_self q rest)
    exact lbDigit_append _ _
      (lbDigit_append _ _
        (lbDigit_append _ _
          (lbDigit_append _ _ (lbDigit_ansiOfHex _) (lbDigit_of_no_lb _ hq.1))
          lbDigit_ansiReset)
        (lbDigit_of_no_lb _ hq.2))
      (ih (fun x hx => h x (List.mem_cons_of_mem q hx)))

theorem lbDigit_renderMarkup_pureCond (cfg : PBarConfigM) (s : ℤ)
    (hpfx : '[' ∉ cfg.prefixStr)
    (hcm : ∀ f, cfg.cmapHex = some f → ∀ q : ℚ, isHex6 (f q) = true) :
    lbDigit (renderMarkup ((pureCondArgs cfg s).1.text)) = true := by
  rw [renderMarkup, fontPasses_pureCond cfg s hpfx hcm]
  cases hc : cfg.cmapHex with
  | none =>
    have hb : barStrFor cfg s = bar0For cfg s := by rw [barStrFor, hc]
    have he : endStrFor cfg s = end0For cfg s := by rw [endStrFor, hc]
    rw [hb, he]
    have hnb : '[' ∉ cfg.prefixStr ++ (bar0For cfg s ++ (end0For cfg s ++
        ("  ".toList ++ labelFor cfg s))) := by
      intro hm
      rcases List.mem_append.mp hm with h | h
      · exact hpfx h
      rcases List.mem_append.mp h with h | h
      · exact no_lb_bar0 cfg s h
      rcases List.mem_append.mp h with h | h
      · exact no_lb_end0 cfg s h
      · exact no_lb_tail2 cfg s h
    rw [renderColors_of_lbSafe _ (lbSafe_of_no_lb _ hnb)]
    exact lbDigit_of_no_lb _ hnb
  | some f =>
    have hb : barStrFor cfg s =
        if (bar0For cfg s).isEmpty then bar0For cfg s
        else colorOpenPat ++ f ((s : ℚ) / (((cfg.length * divs : ℤ) : ℚ) - 1))
          ++ ']' :: bar0For cfg s ++ colorClosePat := by rw [barStrFor, hc]
    have he : endStrFor cfg s =
        if (end0For cfg s).isEmpty then end0For cfg s
        else colorOpenPat ++ f (((s + 1 : ℤ) : ℚ) / (((cfg.length * divs : ℤ) : ℚ) - 1))
          ++ ']' :: end0For cfg s ++ colorClosePat := by rw [endStrFor, hc]
    have hx1 : isHex6 (f ((s : ℚ) / (((cfg.length * divs : ℤ) : ℚ) - 1))) = true :=
      hcm f hc _
    have hx2 : isHex6 (f (((s + 1 : ℤ) : ℚ) / (((cfg.length * divs : ℤ) : ℚ) - 1)))
        = true := hcm f hc _
    by_cases hbe : (bar0For cfg s).isEmpty = true <;>
      by_cases hee : (end0For cfg s).isEmpty = true
    · rw [if_pos hbe] at hb
      rw [if_pos hee] at he
      rw [hb, he, List.isEmpty_iff.mp hbe, List.isEmpty_iff.mp hee]
      have hnb : '[' ∉ cfg.prefixStr ++ (([] : List Char) ++ (([] : List Char) ++
          ("  ".toList ++ labelFor cfg s))) := by
        intro hm
        rcases List.mem_append.mp hm with h | h
        · exact hpfx h
        rcases List.mem_append.mp h with h | h
        · exact List.not_mem_nil _ h
        rcases List.mem_append.mp h with h | h
        · exact List.not_mem_nil _ h
        · exact no_lb_tail2 cfg s h
      rw [renderColors_of_lbSafe _ (lbSafe_of_no_lb _ hnb)]
      exact lbDigit_of_no_lb _ hnb
    · rw [if_pos hbe] at hb
      rw [if_neg hee] at he
      rw [hb, he, List.isEmpty_iff.mp hbe]
      have hI : cfg.prefixStr ++ (([] : List Char) ++
          ((colorOpenPat ++ f (((s + 1 : ℤ) : ℚ) / (((cfg.length * divs : ℤ) : ℚ) - 1))
            ++ ']' :: end0For cfg s ++ colorClosePat) ++
            ("  ".toList ++ labelFor cfg s))) =
          cfg.prefixStr ++ flatW
            [(f (((s + 1 : ℤ) : ℚ) / (((cfg.length * divs : ℤ) : ℚ) - 1)),
              end0For cfg s, "  ".toList ++ labelFor cfg s)] := by
        simp [flatW, List.append_assoc]
      rw [hI, renderColors_flat _ _ ?hsegs (lbSafe_of_no_lb _ hpfx)]
      case hsegs =>
        intro q hq
        rw [List.mem_singleton] at hq
        subst hq
        exact ⟨hx2, lbSafe_of_no_lb _ (no_lb_end0 cfg s),
          lbSafe_of_no_lb _ (no_lb_tail2 cfg s)⟩
      refine lbDigit_append _ _ (lbDigit_of_no_lb _ hpfx) (lbDigit_ansiW _ ?_)
      intro q hq
      rw [List.mem_singleton] at hq
      subst hq
      exact ⟨no_lb_end0 cfg s, no_lb_tail2 cfg s⟩
    · rw [if_neg hbe] at hb
      rw [if_pos hee] at he
      rw [hb, he, List.isEmpty_iff.mp hee]
      have hI : cfg.prefixStr ++
          ((colorOpenPat ++ f ((s : ℚ) / (((cfg.length * divs : ℤ) : ℚ) - 1))
            ++ ']' :: bar0For cfg s ++ colorClosePat) ++
            (([] : List Char) ++ ("  ".toList ++ labelFor cfg s))) =
          cfg.prefixStr ++ flatW
            [(f ((s : ℚ) / (((cfg.length * divs : ℤ) : ℚ) - 1)),
              bar0For cfg s, "  ".toList ++ labelFor cfg s)] := by
        simp [flatW, List.append_assoc]
      rw [hI, renderColors_flat _ _ ?hsegs (lbSafe_of_no_lb _ hpfx)]
      case hsegs =>
        intro q hq
        rw [List.mem_singleton] at hq
        subst hq
        exact ⟨hx1, lbSafe_of_no_lb _ (no_lb_bar0 cfg s),
          lbSafe_of_no_lb _ (no_lb_tail2 cfg s)⟩
      refine lbDigit_append _ _ (lbDigit_of_no_lb _ hpfx) (lbDigit_ansiW _ ?_)
      intro q hq
      rw [List.mem_singleton] at hq
      subst hq
      exact ⟨no_lb_bar0 cfg s, no_lb_tail2 cfg s⟩
    · rw [if_neg hbe] at hb
      rw [if_neg hee] at he
      rw [hb, he]
      have hI : cfg.prefixStr ++
          ((colorOpenPat ++ f ((s : ℚ) / (((cfg.length * divs : ℤ) : ℚ) - 1))
            ++ ']' :: bar0For cfg s ++ colorClosePat) ++
            ((colorOpenPat ++ f (((s + 1 : ℤ) : ℚ) / (((cfg.length * divs : ℤ) : ℚ) - 1))
              ++ ']' :: end0For cfg s ++ colorClosePat) ++
              ("  ".toList ++ labelFor cfg s))) =
          cfg.prefixStr ++ flatW
            [(f ((s : ℚ) / (((cfg.length * divs : ℤ) : ℚ) - 1)), bar0For cfg s, []),
             (f (((s + 1 : ℤ) : ℚ) / (((cfg.length * divs : ℤ) : ℚ) - 1)),
              end0For cfg s, "  ".toList ++ labelFor cfg s)] := by
        simp [flatW, List.append_assoc]
      rw [hI, renderColors_flat _ _ ?hsegs (lbSafe_of_no_lb _ hpfx)]
      case hsegs =>
        intro q hq
        rcases List.mem_cons.mp hq with hq | hq
        · subst hq
          exact ⟨hx1, lbSafe_of_no_lb _ (no_lb_bar0 cfg s), rfl⟩
        rw [List.mem_singleton] at hq
        subst hq
        exact ⟨hx2, lbSafe_of_no_lb _ (no_lb_end0 cfg s),
          lbSafe_of_no_lb _ (no_lb_tail2 cfg s)⟩
      refine lbDigit_append _ _ (lbDigit_of_no_lb _ hpfx) (lbDigit_ansiW _ ?_)
      intro q hq
      rcases List.mem_cons.mp hq with hq | hq
      · subst hq
        exact ⟨no_lb_bar0 cfg s, List.not_mem_nil _⟩
      rw [List.mem_singleton] at hq
      subst hq
      exact ⟨no_lb_end0 cfg s, no_lb_tail2 cfg s⟩

theorem fmt1f_zero : fmt1f 0 = ['0', '.', '0'] := by
  unfold fmt1f
  rw [show (0 : ℚ) * 10 = ((0 : ℤ) : ℚ) from by norm_num, rhe_int]
  norm_num
  decide

theorem postProcess_pair (x y : Cond) :
    postProcess [x, y] = [{ x with comparator := "<=".toList },
                          { y with comparator := ">=".toList }] := rfl

/-- C7 (amended): for every configuration with `length ≥ 1`, `stepSize ≥ 1`,
a prefix containing no `[`, and a colour mapper (if any) whose outputs are
`#` plus six hex digits, rendering any generated condition text leaves no
font-open tag, no `[/font]`, no colour-open tag and no `[/color]`, and
rendering again returns the output unchanged.  The prefix restriction is
needed: a prefix containing markup fragments survives into the output
(`C7_cex`). -/
theorem C7_render_idempotent (pos : ℤ × ℤ) (sig pfx : List Char)
    (cm : Option (ℚ → List Char)) (L ss : ℤ) (hL : 1 ≤ L) (hss : 1 ≤ ss)
    (hpfx : '[' ∉ pfx)
    (hcm : ∀ f, cm = some f → ∀ q : ℚ, isHex6 (f q) = true) :
    ∃ conds args,
      generatePbarConditions ⟨pos, sig, pfx, cm, L, ss⟩ = .ok (conds, args) ∧
      ∀ c ∈ conds,
        hasOcc fontOpenPat (renderMarkup c.text) = false ∧
        hasOcc fontClosePat (renderMarkup c.text) = false ∧
        hasOcc colorOpenPat (renderMarkup c.text) = false ∧
        hasOcc colorClosePat (renderMarkup c.text) = false ∧
        renderMarkup (renderMarkup c.text) = renderMarkup c.text := by
  refine ⟨_, _, genValid ⟨pos, sig, pfx, cm, L, ss⟩ hL hss, ?_⟩
  intro c hc
  obtain ⟨c', hc', htext, hconst⟩ := mem_postProcess c _ hc
  obtain ⟨s, hs, rfl⟩ := List.mem_map.mp hc'
  have hld := lbDigit_renderMarkup_pureCond ⟨pos, sig, pfx, cm, L, ss⟩ s hpfx hcm
  rw [htext]
  refine ⟨?_, ?_, ?_, ?_, renderMarkup_of_lbDigit _ hld⟩
  · rw [fontOpenPat_eq]
    exact hasOcc_false_of_lbDigit 'f' _ (by decide) _ hld
  · rw [fontClosePat_eq]
    exact hasOcc_false_of_lbDigit '/' _ (by decide) _ hld
  · rw [colorOpenPat_eq]
    exact hasOcc_false_of_lbDigit 'c' _ (by decide) _ hld
  · rw [colorClosePat_eq]
    exact hasOcc_false_of_lbDigit '/' _ (by decide) _ hld

/-- C7 counterexample: with prefix `"[/color]"` (length 1, step size 8, no
colour mapper) the generator's first condition text renders to output that
still contains `[/color]`: the render of a generated text is not free of
colour markup for arbitrary configurations. -/
theorem C7_cex :
    ∃ conds args,
      generatePbarConditions ⟨(0, 0), "a".toList, "[/color]".toList, none, 1, 8⟩ =
        .ok (conds, args) ∧
      ∃ c ∈ conds, hasOcc colorClosePat (renderMarkup c.text) = true := by
  refine ⟨_, _, genValid ⟨(0, 0), "a".toList, "[/color]".toList, none, 1, 8⟩
    (by norm_num) (by norm_num), ?_⟩
  rw [show (⟨(0, 0), "a".toList, "[/color]".toList, none, 1, 8⟩ : PBarConfigM).length = 1
      from rfl,
    show (⟨(0, 0), "a".toList, "[/color]".toList, none, 1, 8⟩ : PBarConfigM).stepSize = 8
      from rfl,
    show stepsFor 1 8 = [-1, 7] from by decide,
    List.map_cons, List.map_cons, List.map_nil, postProcess_pair]
  refine ⟨_, List.mem_cons_self _ _, ?_⟩
  show hasOcc colorClosePat
      (renderMarkup
        (pureCondArgs ⟨(0, 0), "a".toList, "[/color]".toList, none, 1, 8⟩ (-1)).1.text) = true
  have hnum : numStrFor ⟨(0, 0), "a".toList, "[/color]".toList, none, 1, 8⟩ (-1) =
      ['0', '.', '0'] := by
    rw [numStrFor]
    norm_num [divs_eq]
    exact fmt1f_zero
  have hfill : fillerCount ⟨(0, 0), "a".toList, "[/color]".toList, none, 1, 8⟩ (-1) = 2 := by
    rw [fillerCount, hnum]
    rfl
  have hbar : barStrFor ⟨(0, 0), "a".toList, "[/color]".toList, none, 1, 8⟩ (-1) = [] := by
    decide
  have hendS : endStrFor ⟨(0, 0), "a".toList, "[/color]".toList, none, 1, 8⟩ (-1) =
      end0For ⟨(0, 0), "a".toList, "[/color]".toList, none, 1, 8⟩ (-1) := by
    rw [endStrFor]
  have hend : end0For ⟨(0, 0), "a".toList, "[/color]".toList, none, 1, 8⟩ (-1) =
      ['█', '0', '0'] := by
    rw [end0For, hfill]
    decide
  have hlab : labelFor ⟨(0, 0), "a".toList, "[/color]".toList, none, 1, 8⟩ (-1) =
      ['0', '.', '0', '%'] := by
    rw [labelFor, hnum]
    rfl
  rw [pureCond_text_eq, hbar, hendS, hend, hlab]
  decide

theorem C7_witness :
    ('[' ∉ "p: ".toList) ∧
    (∃ conds args,
      generatePbarConditions ⟨(0, 0), "a".toList, "p: ".toList, none, 2, 3⟩ =
        .ok (conds, args) ∧
      ∀ c ∈ conds,
        hasOcc fontOpenPat (renderMarkup c.text) = false ∧
        hasOcc fontClosePat (renderMarkup c.text) = false ∧
        hasOcc colorOpenPat (renderMarkup c.text) = false ∧
        hasOcc colorClosePat (renderMarkup c.text) = false ∧
        renderMarkup (renderMarkup c.text) = renderMarkup c.text) :=
  ⟨by decide,
   C7_render_idempotent (0, 0) ("a".toList) ("p: ".toList) none 2 3
     (by norm_num) (by norm_num) (by decide)
     (fun f hf => Option.noConfusion hf)⟩
